import Mathlib

/-!
Verification development for the mcp-sequentialthinking-tools reasoning engine.

The TypeScript source (src/backtracking.ts, src/dag.ts, src/tool-chains.ts,
src/error-handling.ts, src/thought-processor.ts, src/config-constants.ts) is
shallowly embedded below.  JavaScript numbers are modelled as `ℚ` (all the
arithmetic the engine performs is exact on the values it uses), JavaScript
`Map`s as insertion-ordered association lists with `mapGet` / `mapSet`
mirroring `Map.get` / `Map.set`, `undefined`-able fields as `Option`, and
thrown exceptions as `Except`.  Date.now() timestamps are threaded as an
explicit `Int` parameter.
-/

namespace STT

/-- JavaScript `Map.get`: first binding of the key, if any. -/
def mapGet {κ α : Type} [DecidableEq κ] : List (κ × α) → κ → Option α
  | [], _ => none
  | (k, v) :: rest, key => if k = key then some v else mapGet rest key

/-- JavaScript `Map.set`: overwrite in place if the key is bound, else append
(preserving insertion order). -/
def mapSet {κ α : Type} [DecidableEq κ] : List (κ × α) → κ → α → List (κ × α)
  | [], key, v => [(key, v)]
  | (k, w) :: rest, key, v =>
    if k = key then (key, v) :: rest else (k, w) :: mapSet rest key v

/-- JavaScript truthiness of an optional number (`undefined` and `0` are falsy). -/
def natTruthy : Option Nat → Bool
  | some n => n ≠ 0
  | none => false

/-- JavaScript truthiness of an optional boolean. -/
def boolTruthy : Option Bool → Bool
  | some b => b
  | none => false

/-- Insert into a sorted list, after any element allowed to stay before the
new one (`le y x` = `y` may precede `x`), preserving the order of ties. -/
def insertSorted {α : Type} (le : α → α → Bool) (x : α) : List α → List α
  | [] => [x]
  | y :: ys => if le y x then y :: insertSorted le x ys else x :: y :: ys

/-- Stable sort by repeated insertion.  JavaScript
`Array.prototype.sort(comparator)` is a stable sort, and the output of a
stable sort under a total, transitive comparator is unique, so this models it
exactly. -/
def stableSort {α : Type} (le : α → α → Bool) (l : List α) : List α :=
  l.foldl (fun acc x => insertSorted le x acc) []

/-! ## Data model (src/types.ts) -/

/-- One tool recommendation inside a step recommendation (src/types.ts).
`suggested_inputs` and `alternatives` are write-through payload never read by
the verified components and are omitted. -/
structure ToolRecommendation where
  tool_name : String
  confidence : ℚ
  rationale : String
  priority : Int
deriving DecidableEq

/-- A step recommendation (src/types.ts). -/
structure StepRecommendation where
  step_description : String
  recommended_tools : List ToolRecommendation
  expected_outcome : String
  next_step_conditions : Option (List String)
deriving DecidableEq

/-- A thought step (src/types.ts `ThoughtData`). -/
structure ThoughtData where
  available_mcp_tools : List String
  thought : String
  thought_number : Nat
  total_thoughts : Nat
  is_revision : Option Bool
  revises_thought : Option Nat
  branch_from_thought : Option Nat
  branch_id : Option String
  needs_more_thoughts : Option Bool
  next_thought_needed : Bool
  current_step : Option StepRecommendation
  previous_steps : Option (List StepRecommendation)
  remaining_steps : Option (List String)
  confidence : Option ℚ
deriving DecidableEq

/-! ## Backtracking configuration (src/config-constants.ts) -/

/-- Backtracking scoring configuration (src/config-constants.ts
`BacktrackingScoringConfig`). -/
structure BacktrackingConfig where
  minConfidence : ℚ
  enableAutoBacktrack : Bool
  maxBacktrackDepth : Nat
  baseConfidence : ℚ
  toolConfidenceWeight : ℚ
  revisionPenalty : ℚ
  branchBonus : ℚ
  progressBonus : ℚ
  progressThreshold : ℚ
  decliningConfidenceThreshold : ℚ

/-- The default backtracking configuration (`DEFAULT_SCORING_CONFIG.backtracking`). -/
def defaultBacktrackingConfig : BacktrackingConfig where
  minConfidence := 0.3
  enableAutoBacktrack := false
  maxBacktrackDepth := 5
  baseConfidence := 0.5
  toolConfidenceWeight := 0.3
  revisionPenalty := 0.1
  branchBonus := 0.05
  progressBonus := 0.2
  progressThreshold := 0.8
  decliningConfidenceThreshold := 0.5

/-! ## Confidence and backtracking policy (src/backtracking.ts) -/

/-- Structured rendering of the reason strings produced by `shouldBacktrack`
(the source formats them as prose; only their information content is modelled). -/
inductive BacktrackReason where
  | lowConfidence (confidence minConfidence : ℚ)
  | autoBacktrackDisabled
deriving DecidableEq

/-- An entry of `backtrackHistory` (src/backtracking.ts `BacktrackPoint`). -/
structure BacktrackPoint where
  thoughtNumber : Nat
  confidence : ℚ
  reason : BacktrackReason
deriving DecidableEq

/-- Mutable state of `BacktrackingManager`. -/
structure BTMState where
  backtrackHistory : List BacktrackPoint
  thoughtConfidenceMap : List (Nat × ℚ)
deriving DecidableEq

/-- The record returned by `shouldBacktrack`. -/
structure BacktrackDecision where
  shouldBacktrack : Bool
  reason : Option BacktrackReason
  backtrackTo : Option Nat
deriving DecidableEq

/-- Search loop of `findBacktrackPoint`: the candidates `startThought .. current-1`
visited in descending order (`for (let i = currentThought - 1; i >= startThought; i--)`),
returning the first hit. -/
def backtrackCandidates (startThought currentThought : Nat) : List Nat :=
  (List.range' startThought (currentThought - startThought)).reverse

/-- Whether a recorded confidence for step `i` meets the minimum
(`confidence !== undefined && confidence >= this.config.minConfidence`). -/
def confidenceOK (cfg : BacktrackingConfig) (m : List (Nat × ℚ)) (i : Nat) : Bool :=
  match mapGet m i with
  | some c => decide (cfg.minConfidence ≤ c)
  | none => false

/-- `BacktrackingManager.findBacktrackPoint` (src/backtracking.ts:1085-1102 of the
merged source): search backward from `currentThought - 1` down to
`max(1, currentThought - maxBacktrackDepth)` for a recorded confidence meeting
the minimum; fall back to the search floor.  The source's return type is
`number | null` but the body never returns null, so the result is a plain `Nat`. -/
def findBacktrackPoint (cfg : BacktrackingConfig) (m : List (Nat × ℚ))
    (currentThought : Nat) : Nat :=
  let startThought := max 1 (currentThought - cfg.maxBacktrackDepth)
  match (backtrackCandidates startThought currentThought).find? (confidenceOK cfg m) with
  | some i => i
  | none => startThought

/-- `BacktrackingManager.shouldBacktrack` (src/backtracking.ts:1033-1080):
records the step's confidence, and if it is below the minimum either proposes a
backtrack target (auto-backtrack enabled; the null-check on the target is
vacuous since `findBacktrackPoint` never returns null) or reports that
auto-backtrack is disabled. -/
def shouldBacktrack (cfg : BacktrackingConfig) (st : BTMState) (t : ThoughtData) :
    BacktrackDecision × BTMState :=
  match t.confidence with
  | none => (⟨false, none, none⟩, st)
  | some c =>
    let st1 : BTMState :=
      { st with thoughtConfidenceMap := mapSet st.thoughtConfidenceMap t.thought_number c }
    if c < cfg.minConfidence then
      let backtrackPoint := findBacktrackPoint cfg st1.thoughtConfidenceMap t.thought_number
      if cfg.enableAutoBacktrack then
        let reason := BacktrackReason.lowConfidence c cfg.minConfidence
        (⟨true, some reason, some backtrackPoint⟩,
          { st1 with backtrackHistory :=
              st1.backtrackHistory ++ [⟨t.thought_number, c, reason⟩] })
      else
        (⟨false, some BacktrackReason.autoBacktrackDisabled, none⟩, st1)
    else
      (⟨false, none, none⟩, st1)

/-- `Math.max(0, Math.min(1, confidence))` (src/backtracking.ts:1140). -/
def clampConfidence (x : ℚ) : ℚ := max 0 (min 1 x)

/-- `BacktrackingManager.calculateConfidence` (src/backtracking.ts:1108-1141):
baseline, plus mean recommended-tool confidence scaled by a weight, minus a
revision penalty, plus a branch bonus, plus a late-stage progress bonus, then
clamped to [0,1]. -/
def calculateConfidence (cfg : BacktrackingConfig) (t : ThoughtData) : ℚ :=
  let c0 := cfg.baseConfidence
  let c1 :=
    match t.current_step with
    | some step =>
      if 0 < step.recommended_tools.length then
        let toolConfidences := step.recommended_tools.map (·.confidence)
        let avgToolConfidence := toolConfidences.sum / toolConfidences.length
        c0 + avgToolConfidence * cfg.toolConfidenceWeight
      else c0
    | none => c0
  let c2 := if boolTruthy t.is_revision then c1 - cfg.revisionPenalty else c1
  let c3 := if natTruthy t.branch_from_thought then c2 + cfg.branchBonus else c2
  let c4 :=
    if t.thought_number ≠ 0 ∧ t.total_thoughts ≠ 0 then
      let progress : ℚ := (t.thought_number : ℚ) / (t.total_thoughts : ℚ)
      if ¬t.next_thought_needed ∧ cfg.progressThreshold < progress then
        c3 + cfg.progressBonus
      else c3
    else c3
  clampConfidence c4

/-- The mean-tool-confidence contribution as the specification words it:
"the mean of the recommended-tool confidences of the step's current
recommendation (if present) times the tool-confidence weight". -/
def specToolTerm (cfg : BacktrackingConfig) (t : ThoughtData) : ℚ :=
  match t.current_step with
  | some step =>
    if 0 < step.recommended_tools.length then
      ((step.recommended_tools.map (·.confidence)).sum /
        (step.recommended_tools.map (·.confidence)).length) * cfg.toolConfidenceWeight
    else 0
  | none => 0

/-- Whether the progress bonus applies, as the specification words it:
`next_thought_needed` false and `step_number/total_steps` above the threshold
(the source additionally requires both numbers to be truthy). -/
def progressBonusApplies (cfg : BacktrackingConfig) (t : ThoughtData) : Prop :=
  (t.thought_number ≠ 0 ∧ t.total_thoughts ≠ 0) ∧
    (¬t.next_thought_needed ∧
      cfg.progressThreshold < (t.thought_number : ℚ) / (t.total_thoughts : ℚ))

instance (cfg : BacktrackingConfig) (t : ThoughtData) :
    Decidable (progressBonusApplies cfg t) := by
  unfold progressBonusApplies; infer_instance

/-- The confidence formula as one sum, following the specification sentence
word for word (baseline, plus scaled mean tool confidence, minus revision
penalty, plus branch bonus, plus progress bonus), before clamping. -/
def specConfidenceFormula (cfg : BacktrackingConfig) (t : ThoughtData) : ℚ :=
  cfg.baseConfidence + specToolTerm cfg t -
    (if boolTruthy t.is_revision then cfg.revisionPenalty else 0) +
    (if natTruthy t.branch_from_thought then cfg.branchBonus else 0) +
    (if progressBonusApplies cfg t then cfg.progressBonus else 0)

/-! ## Circuit breaker (src/error-handling.ts) -/

/-- Circuit breaker states (`'closed' | 'open' | 'half-open'`). -/
inductive BState where
  | closed
  | opened
  | halfOpen
deriving DecidableEq

/-- `CircuitBreakerConfig` (src/error-handling.ts:2927-2932). -/
structure BreakerConfig where
  failureThreshold : Nat
  resetTimeoutMs : Int
  halfOpenSuccessThreshold : Nat
  name : Option String

/-- Mutable fields of `CircuitBreaker`. -/
structure Breaker where
  state : BState
  failureCount : Nat
  successCount : Nat
  nextAttempt : Int
deriving DecidableEq

/-- `CircuitBreaker.transitionToOpen` (src/error-handling.ts:2942-2948). -/
def transitionToOpen (cfg : BreakerConfig) (now : Int) (_cb : Breaker) : Breaker :=
  { state := .opened, failureCount := 0, successCount := 0,
    nextAttempt := now + cfg.resetTimeoutMs }

/-- `CircuitBreaker.transitionToHalfOpen` (src/error-handling.ts:2950-2954). -/
def transitionToHalfOpen (cb : Breaker) : Breaker :=
  { cb with state := .halfOpen, successCount := 0 }

/-- `CircuitBreaker.transitionToClosed` (src/error-handling.ts:2956-2961). -/
def transitionToClosed (cb : Breaker) : Breaker :=
  { cb with state := .closed, failureCount := 0, successCount := 0 }

/-- Result of `CircuitBreaker.execute`: either the operation's value, the
operation's own error re-thrown, or `CircuitBreakerOpenError`. -/
inductive BreakerError (ε : Type) where
  | breakerOpen
  | opFailed (e : ε)
deriving DecidableEq

/-- Outcome of one `execute` call: the result, the breaker afterwards, the
wrapped state afterwards, and whether the wrapped operation was invoked at all. -/
structure ExecOutcome (ε α σ : Type) where
  result : Except (BreakerError ε) α
  breaker : Breaker
  st : σ
  invoked : Bool

/-- `CircuitBreaker.execute` (src/error-handling.ts:2963-2993).  The wrapped
operation is modelled as a state transformer that either returns a value or
throws, possibly having mutated its state either way. -/
def breakerExecute {ε α σ : Type} (cfg : BreakerConfig) (cb : Breaker) (now : Int)
    (op : σ → Except ε α × σ) (s : σ) : ExecOutcome ε α σ :=
  if cb.state = .opened ∧ now < cb.nextAttempt then
    ⟨.error .breakerOpen, cb, s, false⟩
  else
    let cb1 := if cb.state = .opened then transitionToHalfOpen cb else cb
    match op s with
    | (.ok a, s1) =>
      let cb2 := { cb1 with successCount := cb1.successCount + 1 }
      let cb3 := if cb2.state = .closed then { cb2 with failureCount := 0 } else cb2
      let cb4 :=
        if cb3.state = .halfOpen ∧ cfg.halfOpenSuccessThreshold ≤ cb3.successCount then
          transitionToClosed cb3
        else cb3
      ⟨.ok a, cb4, s1, true⟩
    | (.error e, s1) =>
      let cb2 := { cb1 with failureCount := cb1.failureCount + 1 }
      let cb3 :=
        if cfg.failureThreshold ≤ cb2.failureCount then transitionToOpen cfg now cb2
        else cb2
      ⟨.error (.opFailed e), cb3, s1, true⟩

/-! ## Dependency graph engine (src/dag.ts) -/

/-- Node status (src/dag.ts `DAGNode.status`). -/
inductive NodeStatus where
  | pending
  | ready
  | executing
  | completed
  | failed
deriving DecidableEq

/-- The payload `markCompleted` stores into `node.result` at the one call site
(src/thought-processor.ts:257-260). -/
structure CompletedResult where
  confidence : Option ℚ
  thoughtNumber : Nat
deriving DecidableEq

/-- A node of the thought DAG (src/dag.ts `DAGNode`). -/
structure DAGNode where
  thoughtNumber : Nat
  thought : ThoughtData
  dependencies : List Nat
  children : List Nat
  level : Option Int
  status : NodeStatus
  result : Option CompletedResult
  error : Option String
deriving DecidableEq

/-- Mutable state of `ThoughtDAG` (src/dag.ts:1285-1290). -/
structure DAGState where
  nodes : List (Nat × DAGNode)
  executionOrder : List Nat
  levelCache : List (Nat × Int)
  parallelGroupsCache : Option (List (List Nat))
  cacheDirty : Bool
deriving DecidableEq

/-- A freshly constructed `ThoughtDAG`. -/
def DAGState.initial : DAGState :=
  { nodes := [], executionOrder := [], levelCache := [],
    parallelGroupsCache := none, cacheDirty := false }

/-- `ThoughtDAG.invalidateCache` (src/dag.ts:1292-1295). -/
def invalidateCache (st : DAGState) : DAGState :=
  { st with cacheDirty := true, parallelGroupsCache := none }

/-- Dependency inference of `ThoughtDAG.addThought` (src/dag.ts:1300-1313):
revision target, else branch origin, else previous step when
`thought_number > 1` (JavaScript truthiness on the optional fields). -/
def inferredDependencies (t : ThoughtData) : List Nat :=
  if natTruthy t.revises_thought then [t.revises_thought.getD 0]
  else if natTruthy t.branch_from_thought then [t.branch_from_thought.getD 0]
  else if 1 < t.thought_number then [t.thought_number - 1]
  else []

/-- `ThoughtDAG.addThought` (src/dag.ts:1300-1346). -/
def addThought (st : DAGState) (t : ThoughtData) : DAGState :=
  let dependencies := inferredDependencies t
  let parentLevels := dependencies.map
    (fun dep => ((mapGet st.nodes dep).bind (·.level)).getD 0)
  let maxParentLevel := parentLevels.foldl max 0
  let level : Int := if 0 < parentLevels.length then maxParentLevel + 1 else 0
  let node : DAGNode :=
    { thoughtNumber := t.thought_number, thought := t, dependencies,
      children := [], level := some level,
      status := if dependencies.length = 0 then .ready else .pending,
      result := none, error := none }
  let st1 := { st with
    nodes := mapSet st.nodes t.thought_number node,
    levelCache := mapSet st.levelCache t.thought_number level }
  let st2 := invalidateCache st1
  dependencies.foldl (fun s depNum =>
    match mapGet s.nodes depNum with
    | some parentNode =>
      let parentNode1 := { parentNode with
        children := parentNode.children ++ [t.thought_number] }
      { s with nodes := mapSet s.nodes depNum parentNode1 }
    | none => s) st2

/-- `ThoughtDAG.markExecuting` (src/dag.ts:1377-1384). -/
def markExecuting (st : DAGState) (thoughtNumber : Nat) : DAGState :=
  match mapGet st.nodes thoughtNumber with
  | some node =>
    let node1 := { node with status := NodeStatus.executing }
    invalidateCache { st with nodes := mapSet st.nodes thoughtNumber node1 }
  | none => st

/-- `ThoughtDAG.markCompleted` (src/dag.ts:1389-1412): set the node completed,
then promote each pending child whose dependencies are now all completed. -/
def markCompleted (st : DAGState) (thoughtNumber : Nat) (result : CompletedResult) :
    DAGState :=
  match mapGet st.nodes thoughtNumber with
  | some node =>
    let node1 := { node with status := NodeStatus.completed, result := some result }
    let st1 := invalidateCache { st with nodes := mapSet st.nodes thoughtNumber node1 }
    node.children.foldl (fun s childNum =>
      match mapGet s.nodes childNum with
      | some childNode =>
        if childNode.status = .pending then
          let allDepsCompleted := childNode.dependencies.all (fun depNum =>
            match mapGet s.nodes depNum with
            | some depNode => depNode.status = .completed
            | none => false)
          if allDepsCompleted then
            let childNode1 := { childNode with status := NodeStatus.ready }
            { s with nodes := mapSet s.nodes childNum childNode1 }
          else s
        else s
      | none => s) st1
  | none => st

/-- The counts returned by `ThoughtDAG.getStats` (src/dag.ts:1507-1545). -/
structure DagStats where
  total : Nat
  pending : Nat
  ready : Nat
  executing : Nat
  completed : Nat
  failed : Nat
deriving DecidableEq

/-- `ThoughtDAG.getStats` (src/dag.ts:1507-1545). -/
def getStats (st : DAGState) : DagStats :=
  let count (s : NodeStatus) : Nat :=
    (st.nodes.filter (fun kv => kv.2.status = s)).length
  { total := st.nodes.length, pending := count .pending, ready := count .ready,
    executing := count .executing, completed := count .completed,
    failed := count .failed }

/-- Errors of the level-resolution DFS: `DagCycleError` carrying the offending
step number, or exhaustion of the artificial recursion fuel (proved unreachable
for fuel above the node count). -/
inductive DagErr where
  | cycle (thoughtNumber : Nat)
  | outOfFuel
deriving DecidableEq

/-- Levels map: step number to resolved level. -/
abbrev LMap := List (Nat × Int)

/-- Result of one `resolveLevel` call: the level together with the updated
`levels` memo and `levelCache`. -/
abbrev RRes := Except DagErr (Int × LMap × LMap)

/-- The `for (const dep of node.dependencies)` loop inside `resolveLevel`
(src/dag.ts:1589-1593), parameterized by the recursive resolver: resolves each
dependency in order, accumulating `Math.max`. -/
def resolveDeps (f : Nat → LMap → LMap → RRes) :
    List Nat → Int → LMap → LMap → RRes
  | [], acc, lv, lc => .ok (acc, lv, lc)
  | d :: ds, acc, lv, lc =>
    match f d lv lc with
    | .error e => .error e
    | .ok (l, lv1, lc1) => resolveDeps f ds (max acc l) lv1 lc1

/-- `resolveLevel` inside `ThoughtDAG.getParallelGroups` (src/dag.ts:1571-1600):
memoized DFS computing `1 + max(level of dependencies)`; a node revisited while
still in `visiting` throws `DagCycleError`; a missing node resolves to level 0.
The recursion is driven by explicit fuel (the source recursion is unbounded;
fuel `nodes.length + 1` is proved sufficient below). -/
def resolveLevel (nodes : List (Nat × DAGNode)) :
    Nat → Nat → LMap → LMap → List Nat → RRes
  | 0, _, _, _, _ => .error .outOfFuel
  | fuel + 1, tn, lv, lc, visiting =>
    match mapGet lv tn with
    | some l => .ok (l, lv, lc)
    | none =>
      if tn ∈ visiting then .error (.cycle tn)
      else
        match mapGet nodes tn with
        | none => .ok (0, mapSet lv tn 0, lc)
        | some node =>
          match resolveDeps
              (fun d lv1 lc1 => resolveLevel nodes fuel d lv1 lc1 (tn :: visiting))
              node.dependencies (-1) lv lc with
          | .error e => .error e
          | .ok (maxParentLevel, lv2, lc2) =>
            let level := maxParentLevel + 1
            .ok (level, mapSet lv2 tn level, mapSet lc2 tn level)

/-- The `for (const thoughtNum of this.nodes.keys()) resolveLevel(thoughtNum)`
loop of `getParallelGroups` (src/dag.ts:1602-1604).  The `visiting` set is
empty between top-level calls (every successful call removes what it added). -/
def resolveAllKeys (nodes : List (Nat × DAGNode)) (fuel : Nat) :
    List Nat → LMap → LMap → Except DagErr (LMap × LMap)
  | [], lv, lc => .ok (lv, lc)
  | k :: ks, lv, lc =>
    match resolveLevel nodes fuel k lv lc [] with
    | .error e => .error e
    | .ok (_, lv1, lc1) => resolveAllKeys nodes fuel ks lv1 lc1

/-- Appending a thought number to its level bucket (`groups.get(level)!.push`,
src/dag.ts:1606-1612). -/
def bucketAdd (buckets : List (Int × List Nat)) (lv : Int) (tn : Nat) :
    List (Int × List Nat) :=
  match mapGet buckets lv with
  | some g => mapSet buckets lv (g ++ [tn])
  | none => buckets ++ [(lv, [tn])]

/-- Grouping the resolved levels map into level buckets and listing them in
ascending level order (src/dag.ts:1606-1618). -/
def buildGroups (entries : LMap) : List (List Nat) :=
  let buckets := entries.foldl (fun acc e => bucketAdd acc e.2 e.1) []
  let sortedLevels := stableSort (fun a b => decide (a ≤ b)) (buckets.map Prod.fst)
  sortedLevels.map (fun l => (mapGet buckets l).getD [])

/-- `ThoughtDAG.getParallelGroups` (src/dag.ts:1563-1630): serve the cached
snapshot when clean, else resolve all levels, bucket by level, cache and return.
On an error the partially updated `levelCache` is dropped by the embedding:
`levelCache` is written but never read anywhere in the source, so no observable
behavior depends on it. -/
def getParallelGroups (st : DAGState) : Except DagErr (List (List Nat)) × DAGState :=
  if st.cacheDirty = false ∧ st.parallelGroupsCache.isSome then
    (.ok (st.parallelGroupsCache.getD []), st)
  else
    match resolveAllKeys st.nodes (st.nodes.length + 1) (st.nodes.map Prod.fst)
        [] st.levelCache with
    | .error e => (.error e, st)
    | .ok (lv, lc) =>
      let result := buildGroups lv
      let st1 := { st with
        levelCache := lc
        parallelGroupsCache := some result
        cacheDirty := false }
      (.ok result, st1)

/-- Errors of the topological-sort DFS: `visit` returning `false` on a cycle,
or fuel exhaustion (proved unreachable for fuel above the node count). -/
inductive TopoErr where
  | cycleFound
  | outOfFuel
deriving DecidableEq

/-- Result of a topological-sort visit: the updated `visited` set and `sorted`
list (`visiting` is balanced across every successful call). -/
abbrev TRes := Except TopoErr (List Nat × List Nat)

/-- The `for (const depNum of node.dependencies)` loop inside the
topological-sort `visit` (src/dag.ts:1473-1475), parameterized by the recursive
visitor; a `false` from any dependency aborts. -/
def topoDeps (f : Nat → List Nat → List Nat → TRes) :
    List Nat → List Nat → List Nat → TRes
  | [], visited, sorted => .ok (visited, sorted)
  | d :: ds, visited, sorted =>
    match f d visited sorted with
    | .error e => .error e
    | .ok (v1, s1) => topoDeps f ds v1 s1

/-- The `visit` closure of `ThoughtDAG.topologicalSort` (src/dag.ts:1460-1482):
depth-first post-order append, returning `cycleFound` for a node revisited
while in `visiting`; a missing node is appended with no dependencies. -/
def topoVisit (nodes : List (Nat × DAGNode)) :
    Nat → Nat → List Nat → List Nat → List Nat → TRes
  | 0, _, _, _, _ => .error .outOfFuel
  | fuel + 1, tn, visited, visiting, sorted =>
    if tn ∈ visited then .ok (visited, sorted)
    else if tn ∈ visiting then .error .cycleFound
    else
      match mapGet nodes tn with
      | some node =>
        match topoDeps
            (fun d v s => topoVisit nodes fuel d v (tn :: visiting) s)
            node.dependencies visited sorted with
        | .error e => .error e
        | .ok (v2, s2) => .ok (tn :: v2, s2 ++ [tn])
      | none => .ok (tn :: visited, sorted ++ [tn])

/-- The `for (const thoughtNum of this.nodes.keys())` loop of
`topologicalSort` (src/dag.ts:1484-1492). -/
def topoAll (nodes : List (Nat × DAGNode)) (fuel : Nat) :
    List Nat → List Nat → List Nat → TRes
  | [], visited, sorted => .ok (visited, sorted)
  | k :: ks, visited, sorted =>
    if k ∈ visited then topoAll nodes fuel ks visited sorted
    else
      match topoVisit nodes fuel k visited [] sorted with
      | .error e => .error e
      | .ok (v, s) => topoAll nodes fuel ks v s

/-- `ThoughtDAG.topologicalSort` (src/dag.ts:1455-1502): on a detected cycle it
returns the empty order with the state untouched; on success it stores the
order, invalidates the parallel-groups cache and returns the order.  `none`
models fuel exhaustion, proved unreachable below. -/
def topologicalSort (st : DAGState) : Option (List Nat × DAGState) :=
  match topoAll st.nodes (st.nodes.length + 1) (st.nodes.map Prod.fst) [] [] with
  | .error .outOfFuel => none
  | .error .cycleFound => some ([], st)
  | .ok (_, sorted) =>
    some (sorted, invalidateCache { st with executionOrder := sorted })

/-- The dependency-edge relation of a node map: `a` depends on `b` (an edge
`a → b` followed by the resolution DFS). -/
def depEdge (nodes : List (Nat × DAGNode)) (a b : Nat) : Prop :=
  ∃ nd, mapGet nodes a = some nd ∧ b ∈ nd.dependencies

/-- A dependency cycle: some step reaches itself through one or more
dependency edges. -/
def hasCycle (nodes : List (Nat × DAGNode)) : Prop :=
  ∃ n, Relation.TransGen (depEdge nodes) n n

/-- Every key of the levels memo is accessible along dependency edges (the
invariant of a successful level resolution). -/
def domAcc (nodes : List (Nat × DAGNode)) (lv : LMap) : Prop :=
  ∀ k, (mapGet lv k).isSome → Acc (Function.swap (depEdge nodes)) k

/-- Every visited node is accessible along dependency edges (the invariant of
a successful topological-sort visit). -/
def accAll (nodes : List (Nat × DAGNode)) (visited : List Nat) : Prop :=
  ∀ k ∈ visited, Acc (Function.swap (depEdge nodes)) k

/-- The `visiting` stack of the DFS: consecutive entries are dependency edges
(each entry was pushed while resolving a dependency of the one below it). -/
def chainStack (nodes : List (Nat × DAGNode)) : List Nat → Prop
  | [] => True
  | [_] => True
  | a :: b :: rest => depEdge nodes b a ∧ chainStack nodes (b :: rest)

/-- A minimal thought payload for the concrete cyclic witness graph. -/
def cycThought : ThoughtData :=
  ⟨[], "t", 1, 1, none, none, none, none, none, false, none, none, none, none⟩

/-- Two nodes depending on each other: the smallest cyclic dependency graph,
with the parallel-groups cache invalidated as after any mutation. -/
def twoCycleState : DAGState :=
  { nodes := [(1, ⟨1, cycThought, [2], [], none, .pending, none, none⟩),
              (2, ⟨2, cycThought, [1], [], none, .pending, none, none⟩)],
    executionOrder := [], levelCache := [],
    parallelGroupsCache := none, cacheDirty := true }

/-! ## Tool-chain pattern learner (src/tool-chains.ts) -/

/-- Tool-chain scoring configuration (src/config-constants.ts
`ToolChainScoringConfig`). -/
structure ToolChainScoring where
  prefixMatchWeight : ℚ
  keywordMatchWeight : ℚ
  highSuccessBonus : ℚ
  recentUseBonus : ℚ
  recentUseDaysThreshold : ℚ
  highSuccessRateThreshold : ℚ
  confidenceWeight : ℚ

/-- The default tool-chain scoring (`DEFAULT_SCORING_CONFIG.toolChains`). -/
def defaultToolChainScoring : ToolChainScoring where
  prefixMatchWeight := 10
  keywordMatchWeight := 5
  highSuccessBonus := 5
  recentUseBonus := 3
  recentUseDaysThreshold := 7
  highSuccessRateThreshold := 0.8
  confidenceWeight := 0.3

/-- A completed tool chain (src/tool-chains.ts `ToolChain`).  `lastUsed` is an
epoch timestamp (the source stores `new Date().toISOString()`). -/
structure ToolChain where
  id : String
  sequence : List String
  context : String
  successCount : Nat
  totalUses : Nat
  averageConfidence : ℚ
  lastUsed : Int
deriving DecidableEq

/-- Mutable state of `ToolChainLibrary`: the chain map keyed by the joined
sequence, the current-chain accumulator, and the id counter. -/
structure LibState where
  chains : List (String × ToolChain)
  currentChain : List String
  chainIdCounter : Nat
deriving DecidableEq

/-- A freshly constructed `ToolChainLibrary`. -/
def LibState.initial : LibState := ⟨[], [], 0⟩

/-- `ToolChainLibrary.getChainKey` (src/tool-chains.ts:1768-1770). -/
def getChainKey (sequence : List String) : String :=
  String.intercalate "->" sequence

/-- `ToolChainLibrary.recordToolUse` (src/tool-chains.ts:1687-1693); the
`context` parameter is accepted and ignored, as in the source. -/
def recordToolUse (lib : LibState) (toolName : String) (_context : Option String) :
    LibState :=
  { lib with currentChain := lib.currentChain ++ [toolName] }

/-- JavaScript `confidence || 0.5` (`undefined` and `0` are falsy). -/
def jsOrHalf : Option ℚ → ℚ
  | some c => if c = 0 then 0.5 else c
  | none => 0.5

/-- JavaScript truthiness of an optional string (`undefined` and `''` falsy). -/
def strTruthy : Option String → Bool
  | some s => s ≠ ""
  | none => false

/-- JavaScript `String.prototype.includes` (substring test). -/
def strIncludes (s sub : String) : Bool := decide (sub.data <:+: s.data)

/-- `ToolChainLibrary.completeChain` (src/tool-chains.ts:1698-1752): sequences
shorter than 2 are discarded; otherwise create a new chain or update counts,
rolling-average confidence, timestamp and context; then reset the accumulator. -/
def completeChain (scoring : ToolChainScoring) (now : Int) (lib : LibState)
    (success : Bool) (confidence : Option ℚ) (context : Option String) : LibState :=
  if lib.currentChain.length < 2 then { lib with currentChain := [] }
  else
    let chainKey := getChainKey lib.currentChain
    match mapGet lib.chains chainKey with
    | none =>
      let counter1 := lib.chainIdCounter + 1
      let chain : ToolChain :=
        { id := s!"chain-{counter1}", sequence := lib.currentChain,
          context := context.getD "",
          successCount := if success then 1 else 0,
          totalUses := 1,
          averageConfidence := jsOrHalf confidence,
          lastUsed := now }
      { lib with
        chains := mapSet lib.chains chainKey chain
        chainIdCounter := counter1
        currentChain := [] }
    | some chain =>
      let chain1 := { chain with totalUses := chain.totalUses + 1 }
      let chain2 :=
        if success then { chain1 with successCount := chain1.successCount + 1 }
        else chain1
      let chain3 :=
        match confidence with
        | some c =>
          { chain2 with averageConfidence :=
              chain2.averageConfidence * (1 - scoring.confidenceWeight) +
                c * scoring.confidenceWeight }
        | none => chain2
      let chain4 := { chain3 with lastUsed := now }
      let chain5 :=
        if strTruthy context ∧ strIncludes chain4.context (context.getD "") = false then
          { chain4 with context :=
              if chain4.context ≠ "" then chain4.context ++ "; " ++ context.getD ""
              else context.getD "" }
        else chain4
      { lib with chains := mapSet lib.chains chainKey chain5, currentChain := [] }

/-- `ToolChainLibrary.getMatchingPrefixLength` (src/tool-chains.ts:1856-1869). -/
def getMatchingPrefixLength : List String → List String → Nat
  | a :: as, b :: bs => if a = b then getMatchingPrefixLength as bs + 1 else 0
  | _, _ => 0

/-- The per-tool accumulator of `suggestNextTool` (confidence, contributing
reasons, contributing chain count).  The human-readable reason string
`Found in <id> (success rate: ..%)` is abstracted to the contributing chain id. -/
structure SugAcc where
  confidence : ℚ
  reasons : List String
  chainCount : Nat
deriving DecidableEq

/-- One suggestion returned by `suggestNextTool`; `reason` is the list of
reason entries the source joins with `'; '`. -/
structure Suggestion where
  toolName : String
  confidence : ℚ
  reason : List String
deriving DecidableEq

/-- One iteration of the chain loop in `suggestNextTool`
(src/tool-chains.ts:1886-1915): a chain whose sequence has `previousTools` as
an exact, non-full prefix contributes its next tool, scored by the maximum of
`successRate * averageConfidence` over contributing chains. -/
def suggestFold (previousTools : List String) (acc : List (String × SugAcc))
    (chain : ToolChain) : List (String × SugAcc) :=
  let matchLength := getMatchingPrefixLength previousTools chain.sequence
  if matchLength = previousTools.length ∧ matchLength < chain.sequence.length then
    let nextTool := chain.sequence.getD matchLength ""
    let successRate : ℚ := (chain.successCount : ℚ) / (chain.totalUses : ℚ)
    let existing := (mapGet acc nextTool).getD ⟨0, [], 0⟩
    let upd : SugAcc :=
      { confidence := max existing.confidence (successRate * chain.averageConfidence),
        reasons := existing.reasons ++ [chain.id],
        chainCount := existing.chainCount + 1 }
    mapSet acc nextTool upd
  else acc

/-- `ToolChainLibrary.suggestNextTool` (src/tool-chains.ts:1874-1932): collect
per-tool maxima over matching chains, then stable-sort by confidence
descending (JavaScript `Array.prototype.sort` is stable). -/
def suggestNextTool (lib : LibState) (previousTools : List String) :
    List Suggestion :=
  let suggestions := lib.chains.foldl (fun acc kv => suggestFold previousTools acc kv.2) []
  let result := suggestions.map (fun kv => Suggestion.mk kv.1 kv.2.confidence kv.2.reasons)
  stableSort (fun a b => decide (b.confidence ≤ a.confidence)) result

/-! ## Reasoning orchestrator (src/thought-processor.ts) -/

/-- Configuration and wiring of `ThoughtProcessor` (src/thought-processor.ts
`ThoughtProcessorDeps`; the two breaker configurations stand in for the two
injected `CircuitBreaker` instances). -/
structure ProcDeps where
  btConfig : BacktrackingConfig
  chainScoring : ToolChainScoring
  persistenceBreakerConfig : BreakerConfig
  dagBreakerConfig : BreakerConfig
  enableDAG : Bool
  enableToolChains : Bool
  maxHistorySize : Nat
  sessionId : String

/-- Mutable state reachable from one `ThoughtProcessor`: its own history and
branch maps, plus the injected backtracking manager, DAG, tool-chain library,
breaker states and the persistence collaborator.  The persistence layer is
abstracted to an append-only log of (sessionId, step), following the spec's
two-operation contract (the render-format cache is omitted: it is a pure
performance cache never read for any decision). -/
structure ProcState where
  thoughtHistory : List ThoughtData
  branches : List (String × List ThoughtData)
  branchOrder : List String
  btm : BTMState
  dag : DAGState
  toolLib : LibState
  persisted : List (String × ThoughtData)
  persistenceBreaker : Breaker
  dagBreaker : Breaker
deriving DecidableEq

/-- `ThoughtProcessor.prepareThought` (src/thought-processor.ts:145-157):
raise `total_thoughts` to `thought_number` when exceeded, and fill in a
computed confidence when absent. -/
def prepareThought (cfg : BacktrackingConfig) (input : ThoughtData) : ThoughtData :=
  let t1 :=
    if input.total_thoughts < input.thought_number then
      { input with total_thoughts := input.thought_number }
    else input
  match t1.confidence with
  | none => { t1 with confidence := some (calculateConfidence cfg t1) }
  | some _ => t1

/-- The thought mutation of `ThoughtProcessor.recordStep`
(src/thought-processor.ts:193-199): push `current_step` onto
`previous_steps` (initializing it when absent). -/
def recordStepThought (t : ThoughtData) : ThoughtData :=
  match t.current_step with
  | none => t
  | some cs => { t with previous_steps := some (t.previous_steps.getD [] ++ [cs]) }

/-- `ThoughtProcessor.recordStep` (src/thought-processor.ts:193-209): mutate
the thought and feed the recommended tools to the pattern learner when
tool chains are enabled. -/
def recordStep (deps : ProcDeps) (t : ThoughtData) (lib : LibState) :
    ThoughtData × LibState :=
  match t.current_step with
  | none => (t, lib)
  | some cs =>
    let t1 := { t with previous_steps := some (t.previous_steps.getD [] ++ [cs]) }
    let lib1 :=
      if deps.enableToolChains then
        cs.recommended_tools.foldl
          (fun l tr => recordToolUse l tr.tool_name (some cs.step_description)) lib
      else lib
    (t1, lib1)

/-- JavaScript `delete` on a record key. -/
def mapDelete {κ α : Type} [DecidableEq κ] (m : List (κ × α)) (k : κ) :
    List (κ × α) :=
  m.filter (fun kv => decide (kv.1 ≠ k))

/-- `ThoughtProcessor.updateBranches` (src/thought-processor.ts:211-231):
append branching thoughts to their branch list, tracking insertion order and
evicting the oldest branch beyond `maxHistorySize`. -/
def updateBranches (deps : ProcDeps) (st : ProcState) (t : ThoughtData) : ProcState :=
  if natTruthy t.branch_from_thought ∧ strTruthy t.branch_id then
    let bid := t.branch_id.getD ""
    let st1 :=
      match mapGet st.branches bid with
      | none =>
        { st with
          branches := mapSet st.branches bid []
          branchOrder := st.branchOrder ++ [bid] }
      | some _ => st
    let cur := (mapGet st1.branches bid).getD []
    let st2 := { st1 with branches := mapSet st1.branches bid (cur ++ [t]) }
    if deps.maxHistorySize < st2.branchOrder.length then
      match st2.branchOrder with
      | [] => st2
      | oldest :: rest =>
        { st2 with branchOrder := rest, branches := mapDelete st2.branches oldest }
    else st2
  else st

/-- `ThoughtProcessor.persistThought` (src/thought-processor.ts:233-247):
the persistence call through its circuit breaker; breaker-open and persistence
failures are logged and absorbed.  Storing a step is modelled as appending
`(sessionId, step)` to the durable log. -/
def persistThought (deps : ProcDeps) (now : Int) (st : ProcState) (t : ThoughtData) :
    ProcState :=
  let op : List (String × ThoughtData) →
      Except Unit Unit × List (String × ThoughtData) :=
    fun log => (Except.ok (), log ++ [(deps.sessionId, t)])
  let outcome := breakerExecute deps.persistenceBreakerConfig st.persistenceBreaker
    now op st.persisted
  { st with persisted := outcome.st, persistenceBreaker := outcome.breaker }

/-- The operation passed to the DAG breaker by `ThoughtProcessor.updateDAG`
(src/thought-processor.ts:253-266): add the thought, mark it executing then
completed, read the stats and recompute the parallel groups (which may throw
`DagCycleError`). -/
def dagOp (t : ThoughtData) (d : DAGState) :
    Except DagErr (DagStats × Nat) × DAGState :=
  let d1 := addThought d t
  let d2 := markExecuting d1 t.thought_number
  let d3 := markCompleted d2 t.thought_number ⟨t.confidence, t.thought_number⟩
  let stats := getStats d3
  match getParallelGroups d3 with
  | (.ok groups, d4) => (.ok (stats, groups.length), d4)
  | (.error e, d4) => (.error e, d4)

/-- `ThoughtProcessor.updateDAG` (src/thought-processor.ts:249-281): run the
DAG update through its circuit breaker; any failure (breaker open or a DAG
error) is absorbed as "no DAG stats available". -/
def updateDAG (deps : ProcDeps) (now : Int) (st : ProcState) (t : ThoughtData) :
    Option (DagStats × Nat) × ProcState :=
  if deps.enableDAG = false then (none, st)
  else
    let outcome := breakerExecute deps.dagBreakerConfig st.dagBreaker now (dagOp t) st.dag
    let st1 := { st with dag := outcome.st, dagBreaker := outcome.breaker }
    match outcome.result with
    | .ok stats => (some stats, st1)
    | .error _ => (none, st1)

/-- `ThoughtProcessor.enforceHistoryLimit` (src/thought-processor.ts:283-289):
`splice(0, excess)` removes the oldest entries beyond the cap. -/
def enforceHistoryLimit (maxHistorySize : Nat) (h : List ThoughtData) :
    List ThoughtData :=
  if maxHistorySize < h.length then h.drop (h.length - maxHistorySize) else h

/-- The record returned by `BacktrackingManager.getConfidenceStats`
(src/backtracking.ts:1146-1175). -/
structure ConfidenceStats where
  averageConfidence : ℚ
  minConfidence : ℚ
  maxConfidence : ℚ
  backtrackCount : Nat
deriving DecidableEq

/-- `BacktrackingManager.getConfidenceStats` (src/backtracking.ts:1146-1175). -/
def getConfidenceStats (st : BTMState) : ConfidenceStats :=
  match st.thoughtConfidenceMap.map Prod.snd with
  | [] => ⟨0, 0, 0, st.backtrackHistory.length⟩
  | c :: cs =>
    ⟨((c :: cs).sum) / ((c :: cs).length : ℚ), cs.foldl min c, cs.foldl max c,
      st.backtrackHistory.length⟩

/-- `ThoughtProcessor.suggestNextTools` (src/thought-processor.ts:291-309):
flatten the tool names of all previous steps, ask the library, return the top
three suggestions when any exist (note: a present-but-empty `previous_steps`
is truthy in JavaScript, so only an absent field skips). -/
def suggestNextTools (deps : ProcDeps) (lib : LibState) (t : ThoughtData) :
    Option (List Suggestion) :=
  if deps.enableToolChains = false then none
  else
    match t.previous_steps with
    | none => none
    | some steps =>
      let previousTools := steps.flatMap (fun s => s.recommended_tools.map (·.tool_name))
      let nextToolSuggestions := suggestNextTool lib previousTools
      if 0 < nextToolSuggestions.length then some (nextToolSuggestions.take 3)
      else none

/-- `ThoughtProcessor.finalizeToolChain` (src/thought-processor.ts:311-324):
when the session step says the reasoning is done, complete the current chain
with success iff `(confidence || 0.5) >= 0.5`. -/
def finalizeToolChain (deps : ProcDeps) (now : Int) (lib : LibState)
    (t : ThoughtData) : LibState :=
  if deps.enableToolChains = false ∨ t.next_thought_needed then lib
  else
    completeChain deps.chainScoring now lib
      (decide ((0.5 : ℚ) ≤ jsOrHalf t.confidence)) t.confidence (some t.thought)

/-- The short-circuit payload returned when backtracking is suggested
(src/thought-processor.ts:168-177). -/
structure BacktrackPayload where
  thought_number : Nat
  total_thoughts : Nat
  confidence : Option ℚ
  backtracking_suggested : Bool
  backtrack_reason : Option BacktrackReason
  backtrack_to_thought : Option Nat
deriving DecidableEq

/-- The full result payload (src/thought-processor.ts:358-372). -/
structure NormalPayload where
  thought_number : Nat
  total_thoughts : Nat
  next_thought_needed : Bool
  confidence : Option ℚ
  confidence_stats : ConfidenceStats
  branches : List String
  thought_history_length : Nat
  available_mcp_tools : List String
  current_step : Option StepRecommendation
  previous_steps : Option (List StepRecommendation)
  remaining_steps : Option (List String)
  tool_chain_suggestions : Option (List Suggestion)
  dag_stats : Option (DagStats × Nat)
deriving DecidableEq

/-- The structured content of a `processThought` reply (the JSON text wrapper
is not modelled). -/
inductive ProcResponse where
  | backtrack (p : BacktrackPayload)
  | normal (p : NormalPayload)
deriving DecidableEq

/-- `ThoughtProcessor.processThought` (src/thought-processor.ts:326-383):
normalize, evaluate backtracking (short-circuiting), record the step, update
the DAG, append to bounded history, update branches, persist, then assemble
statistics, suggestions and the final payload. -/
def processThought (deps : ProcDeps) (now : Int) (st : ProcState)
    (input : ThoughtData) : ProcResponse × ProcState :=
  let validatedInput := prepareThought deps.btConfig input
  let decisionSt := shouldBacktrack deps.btConfig st.btm validatedInput
  let st1 := { st with btm := decisionSt.2 }
  if decisionSt.1.shouldBacktrack then
    (.backtrack
      { thought_number := validatedInput.thought_number,
        total_thoughts := validatedInput.total_thoughts,
        confidence := validatedInput.confidence,
        backtracking_suggested := true,
        backtrack_reason := decisionSt.1.reason,
        backtrack_to_thought := decisionSt.1.backtrackTo }, st1)
  else
    let recorded := recordStep deps validatedInput st1.toolLib
    let validated2 := recorded.1
    let st2 := { st1 with toolLib := recorded.2 }
    let dagOut := updateDAG deps now st2 validated2
    let st3 := dagOut.2
    let h1 := enforceHistoryLimit deps.maxHistorySize (st3.thoughtHistory ++ [validated2])
    let st4 := { st3 with thoughtHistory := h1 }
    let st5 := updateBranches deps st4 validated2
    let st6 := persistThought deps now st5 validated2
    let confidenceStats := getConfidenceStats st6.btm
    let toolChainSuggestions := suggestNextTools deps st6.toolLib validated2
    let st7 := { st6 with toolLib := finalizeToolChain deps now st6.toolLib validated2 }
    (.normal
      { thought_number := validated2.thought_number,
        total_thoughts := validated2.total_thoughts,
        next_thought_needed := validated2.next_thought_needed,
        confidence := validated2.confidence,
        confidence_stats := confidenceStats,
        branches := st7.branches.map Prod.fst,
        thought_history_length := st7.thoughtHistory.length,
        available_mcp_tools := validated2.available_mcp_tools,
        current_step := validated2.current_step,
        previous_steps := validated2.previous_steps,
        remaining_steps := validated2.remaining_steps,
        tool_chain_suggestions := toolChainSuggestions,
        dag_stats := dagOut.1 }, st7)

/-- Sequential processing of a list of steps (the per-session lock serializes
calls, so a session's trace is exactly this fold). -/
def runThoughts (deps : ProcDeps) (now : Int) : ProcState → List ThoughtData → ProcState
  | st, [] => st
  | st, t :: ts => runThoughts deps now (processThought deps now st t).2 ts

/-- The thought as it is appended to history: prepared, then mutated by
`recordStep`. -/
def processedThought (cfg : BacktrackingConfig) (t : ThoughtData) : ThoughtData :=
  recordStepThought (prepareThought cfg t)

/-- A sequence of `execute` calls at a fixed time, each wrapping an operation
that merely succeeds or fails as listed. -/
def runBreakerCalls (cfg : BreakerConfig) (now : Int) : Breaker → List Bool → Breaker
  | cb, [] => cb
  | cb, true :: rest =>
    runBreakerCalls cfg now
      (breakerExecute cfg cb now
        (fun (_ : Unit) => ((Except.ok () : Except Unit Unit), ())) ()).breaker rest
  | cb, false :: rest =>
    runBreakerCalls cfg now
      (breakerExecute cfg cb now
        (fun (_ : Unit) => ((Except.error () : Except Unit Unit), ())) ()).breaker rest

/-- The score contribution of one chain in `suggestNextTool`:
`successRate * averageConfidence`. -/
def chainProduct (c : ToolChain) : ℚ :=
  (c.successCount : ℚ) / (c.totalUses : ℚ) * c.averageConfidence

/-- Whether a chain contributes the candidate `tool` for `prev` in
`suggestNextTool`: `prev` is an exact, non-full prefix of its sequence and the
tool right after the prefix is `tool`. -/
def matchStepB (prev : List String) (tool : String) (c : ToolChain) : Bool :=
  decide (getMatchingPrefixLength prev c.sequence = prev.length) &&
    decide (prev.length < c.sequence.length) &&
    decide (c.sequence.getD prev.length "" = tool)

/-- The library state of the round-trip scenario: record tools a, b, c and
complete the chain successfully with confidence 0.9 (at timestamp 0). -/
def roundTripLib : LibState :=
  completeChain defaultToolChainScoring 0
    (recordToolUse (recordToolUse (recordToolUse LibState.initial "a" none) "b" none)
      "c" none)
    true (some 0.9) none

/-! ## Theorems -/

/-- Helper: an `execute` call whose wrapped operation succeeds, in `closed`
state, leaves the breaker `closed` with the failure counter zeroed. -/
theorem breakerExecute_closed_success {ε α σ : Type} (cfg : BreakerConfig)
    (cb : Breaker) (now : Int) (op : σ → Except ε α × σ) (s : σ)
    (a : α) (s1 : σ) (hop : op s = (.ok a, s1)) (hst : cb.state = .closed) :
    (breakerExecute cfg cb now op s).breaker.state = .closed ∧
      (breakerExecute cfg cb now op s).breaker.failureCount = 0 := by
  simp only [breakerExecute, hst, hop]
  simp [hst]

/-- Helper: an `execute` call whose wrapped operation fails, in `closed`
state, opens the breaker exactly when the incremented failure counter reaches
the threshold. -/
theorem breakerExecute_closed_failure {ε α σ : Type} (cfg : BreakerConfig)
    (cb : Breaker) (now : Int) (op : σ → Except ε α × σ) (s : σ)
    (e : ε) (s1 : σ) (hop : op s = (.error e, s1)) (hst : cb.state = .closed) :
    ((breakerExecute cfg cb now op s).breaker.state = .opened ↔
      cfg.failureThreshold ≤ cb.failureCount + 1) ∧
    (cfg.failureThreshold ≤ cb.failureCount + 1 →
      (breakerExecute cfg cb now op s).breaker = transitionToOpen cfg now cb) := by
  simp only [breakerExecute, hst, hop]
  simp only [show (BState.closed = BState.opened ∧ now < cb.nextAttempt) = False by
    simp, if_false]
  by_cases h : cfg.failureThreshold ≤ cb.failureCount + 1
  · simp [h, transitionToOpen]
  · simp [h, hst]

/-- Helper: with the breaker `open` and the reset timeout not yet elapsed,
`execute` rejects without invoking the operation and changes nothing. -/
theorem breakerExecute_open_rejects {ε α σ : Type} (cfg : BreakerConfig)
    (cb : Breaker) (now : Int) (op : σ → Except ε α × σ) (s : σ)
    (hst : cb.state = .opened) (ht : now < cb.nextAttempt) :
    breakerExecute cfg cb now op s =
      ⟨.error .breakerOpen, cb, s, false⟩ := by
  simp [breakerExecute, hst, ht]

/-- Helper: with the breaker `open` and the reset timeout elapsed, `execute`
behaves exactly as in `half-open` state and the operation is invoked. -/
theorem breakerExecute_open_probes {ε α σ : Type} (cfg : BreakerConfig)
    (cb : Breaker) (now : Int) (op : σ → Except ε α × σ) (s : σ)
    (hst : cb.state = .opened) (ht : cb.nextAttempt ≤ now) :
    breakerExecute cfg cb now op s =
        breakerExecute cfg (transitionToHalfOpen cb) now op s ∧
      (breakerExecute cfg cb now op s).invoked = true := by
  constructor
  · simp [breakerExecute, hst, not_lt.2 ht, transitionToHalfOpen]
  · rcases hop : op s with ⟨r, s1⟩
    cases r <;> simp [breakerExecute, hst, not_lt.2 ht, hop]

/-- Helper: a successful call in `half-open` state that reaches the half-open
success threshold closes the breaker and zeroes both counters. -/
theorem breakerExecute_halfOpen_closes {ε α σ : Type} (cfg : BreakerConfig)
    (cb : Breaker) (now : Int) (op : σ → Except ε α × σ) (s : σ)
    (a : α) (s1 : σ) (hop : op s = (.ok a, s1)) (hst : cb.state = .halfOpen)
    (hth : cfg.halfOpenSuccessThreshold ≤ cb.successCount + 1) :
    (breakerExecute cfg cb now op s).breaker =
      { state := .closed, failureCount := 0, successCount := 0,
        nextAttempt := cb.nextAttempt } := by
  simp [breakerExecute, hst, hop, hth, transitionToClosed]

/-- C5.  A breaker with `failureThreshold = 1` opens on one failing call from
`closed` (with `nextAttempt` pushed out by the reset timeout), and a following
call before the timeout fails with the breaker-open error without the wrapped
operation being invoked; in general every call while `open` before the timeout
is rejected unchanged without invoking the operation, and the first call at or
after the timeout invokes the operation, executing it exactly as from the
`half-open` state (the unique probing call). -/
theorem c5_breaker_opens_and_fails_fast :
    (∀ (cfg : BreakerConfig) (cb : Breaker) (t0 t1 : Int) (σ ε α σ2 ε2 α2 : Type)
      (op : σ → Except ε α × σ) (s : σ) (e : ε) (s1 : σ)
      (op2 : σ2 → Except ε2 α2 × σ2) (s2 : σ2),
      cfg.failureThreshold = 1 → cb.state = .closed → op s = (.error e, s1) →
      (breakerExecute cfg cb t0 op s).breaker.state = .opened ∧
      (breakerExecute cfg cb t0 op s).breaker.nextAttempt = t0 + cfg.resetTimeoutMs ∧
      (t1 < t0 + cfg.resetTimeoutMs →
        breakerExecute cfg (breakerExecute cfg cb t0 op s).breaker t1 op2 s2 =
          ⟨.error .breakerOpen, (breakerExecute cfg cb t0 op s).breaker, s2, false⟩)) ∧
    (∀ (cfg : BreakerConfig) (cb : Breaker) (now : Int) (σ ε α : Type)
      (op : σ → Except ε α × σ) (s : σ), cb.state = .opened → now < cb.nextAttempt →
      breakerExecute cfg cb now op s = ⟨.error .breakerOpen, cb, s, false⟩) ∧
    (∀ (cfg : BreakerConfig) (cb : Breaker) (now : Int) (σ ε α : Type)
      (op : σ → Except ε α × σ) (s : σ), cb.state = .opened → cb.nextAttempt ≤ now →
      breakerExecute cfg cb now op s =
          breakerExecute cfg (transitionToHalfOpen cb) now op s ∧
        (breakerExecute cfg cb now op s).invoked = true) := by
  refine ⟨?_, ?_, ?_⟩
  · intro cfg cb t0 t1 σ ε α σ2 ε2 α2 op s e s1 op2 s2 hthr hst hop
    have hopen : (breakerExecute cfg cb t0 op s).breaker = transitionToOpen cfg t0 cb := by
      refine (breakerExecute_closed_failure cfg cb t0 op s e s1 hop hst).2 ?_
      omega
    refine ⟨by simp [hopen, transitionToOpen], by simp [hopen, transitionToOpen], ?_⟩
    intro ht
    refine breakerExecute_open_rejects cfg _ t1 op2 s2 ?_ ?_
    · simp [hopen, transitionToOpen]
    · simp [hopen, transitionToOpen, ht]
  · intro cfg cb now σ ε α op s hst ht
    exact breakerExecute_open_rejects cfg cb now op s hst ht
  · intro cfg cb now σ ε α op s hst ht
    exact breakerExecute_open_probes cfg cb now op s hst ht

/-- Witness for C5 at a concrete breaker: threshold 1, reset timeout 5000,
one failing call at time 0, the next call at time 1. -/
theorem c5_breaker_opens_and_fails_fast_witness :
    (breakerExecute ⟨1, 5000, 1, none⟩ ⟨.closed, 0, 0, 0⟩ 0
        (fun (_ : Unit) => ((Except.error () : Except Unit Unit), ())) ()).breaker.state = BState.opened ∧
    (breakerExecute ⟨1, 5000, 1, none⟩ ⟨.closed, 0, 0, 0⟩ 0
        (fun (_ : Unit) => ((Except.error () : Except Unit Unit), ())) ()).breaker.nextAttempt = 0 + 5000 ∧
    ((1 : Int) < 0 + 5000 →
      breakerExecute ⟨1, 5000, 1, none⟩
          (breakerExecute ⟨1, 5000, 1, none⟩ ⟨.closed, 0, 0, 0⟩ 0
            (fun (_ : Unit) => ((Except.error () : Except Unit Unit), ())) ()).breaker 1
          (fun (_ : Unit) => ((Except.ok () : Except Unit Unit), ())) () =
        ⟨.error .breakerOpen,
          (breakerExecute ⟨1, 5000, 1, none⟩ ⟨.closed, 0, 0, 0⟩ 0
            (fun (_ : Unit) => ((Except.error () : Except Unit Unit), ())) ()).breaker, (), false⟩) :=
  c5_breaker_opens_and_fails_fast.1 ⟨1, 5000, 1, none⟩ ⟨.closed, 0, 0, 0⟩ 0 1
    Unit Unit Unit Unit Unit Unit (fun _ => ((Except.error () : Except Unit Unit), ())) () () ()
    (fun _ => ((Except.ok () : Except Unit Unit), ())) () rfl rfl rfl

/-- Helper: a successful call in `closed` state increments the success
counter, zeroes the failure counter and changes nothing else. -/
theorem breakerExecute_closed_success_eq {ε α σ : Type} (cfg : BreakerConfig)
    (cb : Breaker) (now : Int) (op : σ → Except ε α × σ) (s : σ)
    (a : α) (s1 : σ) (hop : op s = (.ok a, s1)) (hst : cb.state = .closed) :
    (breakerExecute cfg cb now op s).breaker =
      { cb with successCount := cb.successCount + 1, failureCount := 0 } := by
  simp [breakerExecute, hst, hop]

/-- Helper: a failing call in `closed` state below the threshold only
increments the failure counter. -/
theorem breakerExecute_closed_failure_stay {ε α σ : Type} (cfg : BreakerConfig)
    (cb : Breaker) (now : Int) (op : σ → Except ε α × σ) (s : σ)
    (e : ε) (s1 : σ) (hop : op s = (.error e, s1)) (hst : cb.state = .closed)
    (hlt : ¬ cfg.failureThreshold ≤ cb.failureCount + 1) :
    (breakerExecute cfg cb now op s).breaker =
      { cb with failureCount := cb.failureCount + 1 } := by
  simp [breakerExecute, hst, hop, hlt]

/-- Helper for the C6 trace property: from `closed`, a call sequence whose
failure count keeps the accumulated counter below the threshold leaves the
breaker `closed`, with the counter bounded by the failures seen. -/
theorem runBreakerCalls_closed_bound (cfg : BreakerConfig) (now : Int) :
    ∀ (outs : List Bool) (cb : Breaker), cb.state = .closed →
      cb.failureCount + outs.count false < cfg.failureThreshold →
      (runBreakerCalls cfg now cb outs).state = .closed ∧
        (runBreakerCalls cfg now cb outs).failureCount ≤
          cb.failureCount + outs.count false := by
  intro outs
  induction outs with
  | nil => intro cb hst _; simpa [runBreakerCalls] using hst
  | cons success rest ih =>
    intro cb hst hbound
    rcases success with _ | _
    · -- failing call: the counter increments but stays below the threshold
      have hcount : ((false :: rest).count false) = rest.count false + 1 := by
        simp [List.count_cons]
      rw [hcount] at hbound
      have hlt : ¬ cfg.failureThreshold ≤ cb.failureCount + 1 := by omega
      rw [runBreakerCalls,
        breakerExecute_closed_failure_stay cfg cb now _ () () () rfl hst hlt]
      have h2 := ih { cb with failureCount := cb.failureCount + 1 }
        (by simpa using hst) (by simp; omega)
      exact ⟨h2.1, by rw [hcount]; refine le_trans h2.2 ?_; simp; omega⟩
    · -- successful call: the counter resets to zero
      have hcount : ((true :: rest).count false) = rest.count false := by
        simp [List.count_cons]
      rw [runBreakerCalls,
        breakerExecute_closed_success_eq cfg cb now _ () () () rfl hst]
      have h2 := ih { cb with successCount := cb.successCount + 1, failureCount := 0 }
        (by simpa using hst) (by simp; omega)
      exact ⟨h2.1, by rw [hcount]; refine le_trans h2.2 ?_; simp⟩

/-- C6.  The failure counter is reset by every successful closed-state call
(the breaker staying closed); from `closed`, a failing call opens the breaker
exactly when the incremented counter reaches the threshold, so a trace with
fewer than `failureThreshold` failures can never open it; and reaching the
half-open success threshold closes the breaker zeroing both counters. -/
theorem c6_failure_counter_reset :
    (∀ (cfg : BreakerConfig) (cb : Breaker) (now : Int) (σ ε α : Type)
      (op : σ → Except ε α × σ) (s : σ) (a : α) (s1 : σ),
      op s = (.ok a, s1) → cb.state = .closed →
      (breakerExecute cfg cb now op s).breaker.state = .closed ∧
        (breakerExecute cfg cb now op s).breaker.failureCount = 0) ∧
    (∀ (cfg : BreakerConfig) (cb : Breaker) (now : Int) (σ ε α : Type)
      (op : σ → Except ε α × σ) (s : σ) (e : ε) (s1 : σ),
      op s = (.error e, s1) → cb.state = .closed →
      ((breakerExecute cfg cb now op s).breaker.state = .opened ↔
        cfg.failureThreshold ≤ cb.failureCount + 1)) ∧
    (∀ (cfg : BreakerConfig) (now : Int) (outs : List Bool) (cb : Breaker),
      cb.state = .closed → cb.failureCount + outs.count false < cfg.failureThreshold →
      (runBreakerCalls cfg now cb outs).state = .closed) ∧
    (∀ (cfg : BreakerConfig) (cb : Breaker) (now : Int) (σ ε α : Type)
      (op : σ → Except ε α × σ) (s : σ) (a : α) (s1 : σ),
      op s = (.ok a, s1) → cb.state = .halfOpen →
      cfg.halfOpenSuccessThreshold ≤ cb.successCount + 1 →
      (breakerExecute cfg cb now op s).breaker =
        { state := .closed, failureCount := 0, successCount := 0,
          nextAttempt := cb.nextAttempt }) := by
  refine ⟨?_, ?_, ?_, ?_⟩
  · intro cfg cb now σ ε α op s a s1 hop hst
    exact breakerExecute_closed_success cfg cb now op s a s1 hop hst
  · intro cfg cb now σ ε α op s e s1 hop hst
    exact (breakerExecute_closed_failure cfg cb now op s e s1 hop hst).1
  · intro cfg now outs cb hst hbound
    exact (runBreakerCalls_closed_bound cfg now outs cb hst hbound).1
  · intro cfg cb now σ ε α op s a s1 hop hst hth
    exact breakerExecute_halfOpen_closes cfg cb now op s a s1 hop hst hth

/-- Witness for C6: a concrete closed breaker with threshold 3 (one success
resetting the counter, one failure not opening, a two-failure trace staying
closed) and a half-open breaker closed by one success. -/
theorem c6_failure_counter_reset_witness :
    ((breakerExecute ⟨3, 5000, 1, none⟩ ⟨.closed, 2, 0, 0⟩ 0
        (fun (_ : Unit) => ((Except.ok () : Except Unit Unit), ())) ()).breaker.state
          = .closed ∧
      (breakerExecute ⟨3, 5000, 1, none⟩ ⟨.closed, 2, 0, 0⟩ 0
        (fun (_ : Unit) => ((Except.ok () : Except Unit Unit), ())) ()).breaker.failureCount
          = 0) ∧
    ((breakerExecute ⟨3, 5000, 1, none⟩ ⟨.closed, 0, 0, 0⟩ 0
        (fun (_ : Unit) => ((Except.error () : Except Unit Unit), ())) ()).breaker.state
          = .opened ↔ (3 : Nat) ≤ 0 + 1) ∧
    ((runBreakerCalls ⟨3, 5000, 1, none⟩ 0 ⟨.closed, 0, 0, 0⟩
        [false, true, false]).state = .closed) ∧
    ((breakerExecute ⟨3, 5000, 1, none⟩ ⟨.halfOpen, 0, 0, 7⟩ 0
        (fun (_ : Unit) => ((Except.ok () : Except Unit Unit), ())) ()).breaker =
      { state := .closed, failureCount := 0, successCount := 0, nextAttempt := 7 }) := by
  refine ⟨?_, ?_, ?_, ?_⟩
  · exact c6_failure_counter_reset.1 ⟨3, 5000, 1, none⟩ ⟨.closed, 2, 0, 0⟩ 0
      Unit Unit Unit _ () () () rfl rfl
  · exact c6_failure_counter_reset.2.1 ⟨3, 5000, 1, none⟩ ⟨.closed, 0, 0, 0⟩ 0
      Unit Unit Unit _ () () () rfl rfl
  · exact c6_failure_counter_reset.2.2.1 ⟨3, 5000, 1, none⟩ 0 [false, true, false]
      ⟨.closed, 0, 0, 0⟩ rfl (by simp)
  · exact c6_failure_counter_reset.2.2.2 ⟨3, 5000, 1, none⟩ ⟨.halfOpen, 0, 0, 7⟩ 0
      Unit Unit Unit _ () () () rfl rfl (by simp)

/-- Helper: the clamp keeps its argument inside [0,1]. -/
theorem clampConfidence_mem (x : ℚ) :
    0 ≤ clampConfidence x ∧ clampConfidence x ≤ 1 := by
  unfold clampConfidence
  constructor
  · exact le_max_left 0 _
  · exact max_le (by norm_num) (min_le_left 1 x)

/-- Helper: the clamp is the identity on [0,1]. -/
theorem clampConfidence_eq_self {x : ℚ} (h0 : 0 ≤ x) (h1 : x ≤ 1) :
    clampConfidence x = x := by
  unfold clampConfidence
  rw [min_eq_right h1, max_eq_right h0]

/-- Helper: folding a guarded addition into an additive if-term. -/
theorem ite_add_form (c : Prop) [Decidable c] (x a : ℚ) :
    (if c then x + a else x) = x + (if c then a else 0) := by
  split <;> simp

/-- Helper: folding a guarded subtraction into a subtractive if-term. -/
theorem ite_sub_form (c : Prop) [Decidable c] (x a : ℚ) :
    (if c then x - a else x) = x - (if c then a else 0) := by
  split <;> simp

/-- Helper: folding two nested guards into one conjunctive if-term. -/
theorem ite_ite_zero (c1 c2 : Prop) [Decidable c1] [Decidable c2] (a : ℚ) :
    (if c1 then (if c2 then a else 0) else 0) = if c1 ∧ c2 then a else 0 := by
  by_cases h1 : c1 <;> by_cases h2 : c2 <;> simp [h1, h2]

set_option maxHeartbeats 800000 in
/-- Helper: the sequentially accumulated confidence of the source equals the
one-sum formula of the specification, clamped. -/
theorem calculateConfidence_eq_spec (cfg : BacktrackingConfig) (t : ThoughtData) :
    calculateConfidence cfg t = clampConfidence (specConfidenceFormula cfg t) := by
  unfold calculateConfidence specConfidenceFormula specToolTerm progressBonusApplies
  rcases hcs : t.current_step with _ | step
  · simp only [hcs, ite_add_form, ite_sub_form, ite_ite_zero]
    try (congr 1; ring)
  · by_cases h0 : 0 < step.recommended_tools.length <;>
      simp only [hcs, h0, if_true, if_false, ite_add_form, ite_sub_form, ite_ite_zero] <;>
      try (congr 1; ring)

/-- C4.  `calculateConfidence` always lies in [0,1] and equals the clamp of
the specification's one-sum formula (baseline, plus scaled mean tool
confidence, minus revision penalty, plus branch bonus, plus progress bonus);
for a step with no revision, no branch and no recommendation whose applicable
sum already lies in [0,1], the result is exactly the baseline plus the
applicable progress bonus. -/
theorem c4_calculate_confidence :
    (∀ (cfg : BacktrackingConfig) (t : ThoughtData),
      0 ≤ calculateConfidence cfg t ∧ calculateConfidence cfg t ≤ 1 ∧
      calculateConfidence cfg t = clampConfidence (specConfidenceFormula cfg t)) ∧
    (∀ (cfg : BacktrackingConfig) (t : ThoughtData),
      boolTruthy t.is_revision = false → natTruthy t.branch_from_thought = false →
      t.current_step = none →
      0 ≤ cfg.baseConfidence +
        (if progressBonusApplies cfg t then cfg.progressBonus else 0) →
      cfg.baseConfidence +
        (if progressBonusApplies cfg t then cfg.progressBonus else 0) ≤ 1 →
      calculateConfidence cfg t = cfg.baseConfidence +
        (if progressBonusApplies cfg t then cfg.progressBonus else 0)) := by
  constructor
  · intro cfg t
    have heq := calculateConfidence_eq_spec cfg t
    have hb := clampConfidence_mem (specConfidenceFormula cfg t)
    exact ⟨heq ▸ hb.1, heq ▸ hb.2, heq⟩
  · intro cfg t h1 h2 h3 hlo hhi
    have heq := calculateConfidence_eq_spec cfg t
    have hform : specConfidenceFormula cfg t = cfg.baseConfidence +
        (if progressBonusApplies cfg t then cfg.progressBonus else 0) := by
      unfold specConfidenceFormula specToolTerm
      rw [h3]
      simp [h1, h2]
    rw [heq, hform, clampConfidence_eq_self hlo hhi]

/-- Witness for C4: the default configuration and a bare final step 1 of 1
(no revision, no branch, no recommendation; the progress bonus applies since
1/1 exceeds the 0.8 threshold), giving 0.5 + 0.2. -/
theorem c4_calculate_confidence_witness :
    calculateConfidence defaultBacktrackingConfig
        ⟨[], "done", 1, 1, none, none, none, none, none, false, none, none, none, none⟩ =
      defaultBacktrackingConfig.baseConfidence +
        (if progressBonusApplies defaultBacktrackingConfig
            ⟨[], "done", 1, 1, none, none, none, none, none, false, none, none, none, none⟩
          then defaultBacktrackingConfig.progressBonus else 0) := by
  have happ : progressBonusApplies defaultBacktrackingConfig
      ⟨[], "done", 1, 1, none, none, none, none, none, false, none, none, none, none⟩ := by
    refine ⟨⟨by norm_num, by norm_num⟩, by simp, ?_⟩
    norm_num [defaultBacktrackingConfig]
  refine c4_calculate_confidence.2 defaultBacktrackingConfig _ rfl rfl rfl ?_ ?_
  · rw [if_pos happ]; norm_num [defaultBacktrackingConfig]
  · rw [if_pos happ]; norm_num [defaultBacktrackingConfig]

/-- Helper: a descending scan over `[s, s+len)` returns the greatest index
satisfying the predicate, or nothing when none does. -/
theorem find_desc_spec (p : Nat → Bool) (s : Nat) :
    ∀ len : Nat,
      (∀ j, ((List.range' s len).reverse.find? p) = some j →
        p j = true ∧ s ≤ j ∧ j < s + len ∧
          ∀ i, s ≤ i → i < s + len → p i = true → i ≤ j) ∧
      (((List.range' s len).reverse.find? p) = none →
        ∀ i, s ≤ i → i < s + len → p i = false) := by
  intro len
  induction len with
  | zero => exact ⟨by simp, by intro _ i h1 h2; omega⟩
  | succ n ih =>
    have hsplit : (List.range' s (n + 1)).reverse = (s + n) :: (List.range' s n).reverse := by
      rw [List.range'_concat, List.reverse_append]; simp
    constructor
    · intro j hj
      rw [hsplit] at hj
      by_cases hp : p (s + n) = true
      · rw [List.find?_cons_of_pos _ hp] at hj
        obtain rfl : s + n = j := by injection hj
        exact ⟨hp, by omega, by omega, fun i h1 h2 _ => by omega⟩
      · rw [List.find?_cons_of_neg _ (by simpa using hp)] at hj
        obtain ⟨hpj, h1, h2, hgr⟩ := (ih.1 j) hj
        refine ⟨hpj, h1, by omega, fun i hi1 hi2 hpi => ?_⟩
        rcases Nat.lt_or_ge i (s + n) with h | h
        · exact hgr i hi1 h hpi
        · exfalso
          have : i = s + n := by omega
          subst this
          exact hp hpi
    · intro hnone i h1 h2
      rw [hsplit] at hnone
      by_cases hp : p (s + n) = true
      · rw [List.find?_cons_of_pos _ hp] at hnone; cases hnone
      · rw [List.find?_cons_of_neg _ (by simpa using hp)] at hnone
        rcases Nat.lt_or_ge i (s + n) with h | h
        · exact ih.2 hnone i h1 h
        · have : i = s + n := by omega
          subst this
          simpa using hp

/-- C3.  `findBacktrackPoint` searches `max(1, cur - maxBacktrackDepth) .. cur-1`
and returns the greatest step whose recorded confidence meets the minimum, or
the search floor when none qualifies; and in the concrete scenario
(minConfidence 0.4, auto-backtrack enabled, steps 1..3 scored 0.6, 0.5, 0.1)
the third step triggers a backtrack to step 2. -/
theorem c3_backtrack_point_search :
    (∀ (cfg : BacktrackingConfig) (m : List (Nat × ℚ)) (cur : Nat),
      ((∃ i, max 1 (cur - cfg.maxBacktrackDepth) ≤ i ∧ i < cur ∧
          confidenceOK cfg m i = true) →
        (max 1 (cur - cfg.maxBacktrackDepth) ≤ findBacktrackPoint cfg m cur ∧
          findBacktrackPoint cfg m cur < cur ∧
          confidenceOK cfg m (findBacktrackPoint cfg m cur) = true ∧
          ∀ i, max 1 (cur - cfg.maxBacktrackDepth) ≤ i → i < cur →
            confidenceOK cfg m i = true → i ≤ findBacktrackPoint cfg m cur)) ∧
      ((∀ i, max 1 (cur - cfg.maxBacktrackDepth) ≤ i → i < cur →
          confidenceOK cfg m i = false) →
        findBacktrackPoint cfg m cur = max 1 (cur - cfg.maxBacktrackDepth))) ∧
    ((shouldBacktrack { defaultBacktrackingConfig with
          minConfidence := 0.4, enableAutoBacktrack := true }
        (shouldBacktrack { defaultBacktrackingConfig with
            minConfidence := 0.4, enableAutoBacktrack := true }
          (shouldBacktrack { defaultBacktrackingConfig with
              minConfidence := 0.4, enableAutoBacktrack := true }
            ⟨[], []⟩
            ⟨[], "s1", 1, 3, none, none, none, none, none, true, none, none, none,
              some 0.6⟩).2
          ⟨[], "s2", 2, 3, none, none, none, none, none, true, none, none, none,
            some 0.5⟩).2
        ⟨[], "s3", 3, 3, none, none, none, none, none, true, none, none, none,
          some 0.1⟩).1 =
      ⟨true, some (.lowConfidence 0.1 0.4), some 2⟩) := by
  constructor
  · intro cfg m cur
    have hspec := find_desc_spec (confidenceOK cfg m) (max 1 (cur - cfg.maxBacktrackDepth))
      (cur - max 1 (cur - cfg.maxBacktrackDepth))
    constructor
    · rintro ⟨i, hi1, hi2, hik⟩
      rcases hfind : (backtrackCandidates (max 1 (cur - cfg.maxBacktrackDepth)) cur).find?
          (confidenceOK cfg m) with _ | j
      · exfalso
        have := hspec.2 (by simpa [backtrackCandidates] using hfind) i hi1 (by omega)
        rw [hik] at this; cases this
      · obtain ⟨hpj, h1, h2, hgr⟩ := hspec.1 j (by simpa [backtrackCandidates] using hfind)
        have hr : findBacktrackPoint cfg m cur = j := by
          simp only [findBacktrackPoint]
          rw [hfind]
        rw [hr]
        exact ⟨h1, by omega, hpj, fun i2 hb1 hb2 hb3 => hgr i2 hb1 (by omega) hb3⟩
    · intro hall
      rcases hfind : (backtrackCandidates (max 1 (cur - cfg.maxBacktrackDepth)) cur).find?
          (confidenceOK cfg m) with _ | j
      · simp only [findBacktrackPoint]
        rw [hfind]
      · exfalso
        obtain ⟨hpj, h1, h2, -⟩ := hspec.1 j (by simpa [backtrackCandidates] using hfind)
        have := hall j h1 (by omega)
        rw [hpj] at this; cases this
  · norm_num [shouldBacktrack, findBacktrackPoint, backtrackCandidates, confidenceOK,
      mapGet, mapSet, defaultBacktrackingConfig, List.range']

/-- Witness for C3's general part: the recorded map 1 ↦ 0.6, 2 ↦ 0.5, 3 ↦ 0.1
at step 3 with minimum 0.4 yields target 2, the greatest qualifying index. -/
theorem c3_backtrack_point_search_witness :
    max 1 (3 - ({ defaultBacktrackingConfig with
        minConfidence := (0.4 : ℚ), enableAutoBacktrack := true } :
          BacktrackingConfig).maxBacktrackDepth) ≤
      findBacktrackPoint { defaultBacktrackingConfig with
        minConfidence := 0.4, enableAutoBacktrack := true }
        [(1, 0.6), (2, 0.5), (3, 0.1)] 3 ∧
    findBacktrackPoint { defaultBacktrackingConfig with
        minConfidence := 0.4, enableAutoBacktrack := true }
      [(1, 0.6), (2, 0.5), (3, 0.1)] 3 < 3 ∧
    confidenceOK { defaultBacktrackingConfig with
        minConfidence := 0.4, enableAutoBacktrack := true }
      [(1, 0.6), (2, 0.5), (3, 0.1)]
      (findBacktrackPoint { defaultBacktrackingConfig with
          minConfidence := 0.4, enableAutoBacktrack := true }
        [(1, 0.6), (2, 0.5), (3, 0.1)] 3) = true ∧
    ∀ i, max 1 (3 - ({ defaultBacktrackingConfig with
        minConfidence := (0.4 : ℚ), enableAutoBacktrack := true } :
          BacktrackingConfig).maxBacktrackDepth) ≤ i → i < 3 →
      confidenceOK { defaultBacktrackingConfig with
          minConfidence := 0.4, enableAutoBacktrack := true }
        [(1, 0.6), (2, 0.5), (3, 0.1)] i = true →
      i ≤ findBacktrackPoint { defaultBacktrackingConfig with
          minConfidence := 0.4, enableAutoBacktrack := true }
        [(1, 0.6), (2, 0.5), (3, 0.1)] 3 :=
  (c3_backtrack_point_search.1 _ [(1, 0.6), (2, 0.5), (3, 0.1)] 3).1
    ⟨2, by norm_num [defaultBacktrackingConfig],
      by norm_num, by norm_num [confidenceOK, mapGet]⟩

/-- Helper: reading back the key just set. -/
theorem mapGet_mapSet_self {κ α : Type} [DecidableEq κ]
    (m : List (κ × α)) (k : κ) (v : α) : mapGet (mapSet m k v) k = some v := by
  induction m with
  | nil => simp [mapGet, mapSet]
  | cons kv rest ih =>
    by_cases h : kv.1 = k
    · simp [mapSet, mapGet, h]
    · rcases kv with ⟨k1, v1⟩
      simp only [mapSet, mapGet]
      rw [if_neg h, mapGet, if_neg h]
      exact ih

/-- Helper: setting one key leaves every other key unchanged. -/
theorem mapGet_mapSet_ne {κ α : Type} [DecidableEq κ]
    (m : List (κ × α)) (k k2 : κ) (v : α) (h : k ≠ k2) :
    mapGet (mapSet m k v) k2 = mapGet m k2 := by
  induction m with
  | nil => simp [mapGet, mapSet, h]
  | cons kv rest ih =>
    rcases kv with ⟨k1, v1⟩
    by_cases h1 : k1 = k
    · simp [mapSet, mapGet, h1, h]
    · simp only [mapSet, if_neg h1, mapGet]
      by_cases h2 : k1 = k2 <;> simp [h2, ih]

/-- Helper: `mapSet` keeps the key list unchanged when the key is present and
appends it otherwise. -/
theorem mapSet_keys {κ α : Type} [DecidableEq κ]
    (m : List (κ × α)) (k : κ) (v : α) :
    (mapSet m k v).map Prod.fst =
      if k ∈ m.map Prod.fst then m.map Prod.fst else m.map Prod.fst ++ [k] := by
  induction m with
  | nil => simp [mapSet]
  | cons kv rest ih =>
    rcases kv with ⟨k1, v1⟩
    by_cases h1 : k1 = k
    · simp [mapSet, h1]
    · have h1n : ¬ k = k1 := fun h => h1 h.symm
      simp only [mapSet, if_neg h1, List.map_cons, List.mem_cons]
      rw [ih]
      by_cases h2 : k ∈ rest.map Prod.fst <;> simp [h2, h1n]

/-- Helper: `mapSet` preserves distinctness of keys. -/
theorem mapSet_nodup {κ α : Type} [DecidableEq κ]
    (m : List (κ × α)) (k : κ) (v : α) (h : (m.map Prod.fst).Nodup) :
    ((mapSet m k v).map Prod.fst).Nodup := by
  rw [mapSet_keys]
  by_cases hk : k ∈ m.map Prod.fst
  · simp [hk, h]
  · rw [if_neg hk]
    rw [List.nodup_append]
    refine ⟨h, List.nodup_singleton k, ?_⟩
    intro a ha hak
    simp only [List.mem_singleton] at hak
    subst hak
    exact hk ha

/-- Helper: a lookup hit is list membership. -/
theorem mapGet_mem {κ α : Type} [DecidableEq κ]
    (m : List (κ × α)) (k : κ) (a : α) (h : mapGet m k = some a) : (k, a) ∈ m := by
  induction m with
  | nil => simp [mapGet] at h
  | cons kv rest ih =>
    rcases kv with ⟨k1, v1⟩
    simp only [mapGet] at h
    by_cases h1 : k1 = k
    · rw [if_pos h1] at h
      injection h with h2
      simp [← h1, h2]
    · rw [if_neg h1] at h
      exact List.mem_cons_of_mem _ (ih h)

/-- Helper: under distinct keys, list membership is a lookup hit. -/
theorem mem_mapGet {κ α : Type} [DecidableEq κ]
    (m : List (κ × α)) (k : κ) (a : α) (hnd : (m.map Prod.fst).Nodup)
    (h : (k, a) ∈ m) : mapGet m k = some a := by
  induction m with
  | nil => simp at h
  | cons kv rest ih =>
    rcases kv with ⟨k1, v1⟩
    simp only [List.map_cons, List.nodup_cons] at hnd
    rcases List.mem_cons.1 h with h2 | h2
    · injection h2 with ha hb
      simp [mapGet, ha.symm, hb]
    · have hk : k1 ≠ k := by
        rintro rfl
        exact hnd.1 (List.mem_map.2 ⟨(k1, a), h2, rfl⟩)
      simp only [mapGet, if_neg hk]
      exact ih hnd.2 h2

/-- Helper: a membership hit justifies `isSome`. -/
theorem mapGet_isSome_iff {κ α : Type} [DecidableEq κ]
    (m : List (κ × α)) (k : κ) :
    (mapGet m k).isSome ↔ ∃ a, mapGet m k = some a := by
  cases h : mapGet m k <;> simp [h]

/-- Helper: the pointwise effect of one `suggestNextTool` loop iteration. -/
theorem mapGet_suggestFold (prev : List String) (acc : List (String × SugAcc))
    (c : ToolChain) (tool : String) :
    mapGet (suggestFold prev acc c) tool =
      if matchStepB prev tool c = true then
        some
          { confidence := max ((mapGet acc tool).getD ⟨0, [], 0⟩).confidence
              (chainProduct c),
            reasons := ((mapGet acc tool).getD ⟨0, [], 0⟩).reasons ++ [c.id],
            chainCount := ((mapGet acc tool).getD ⟨0, [], 0⟩).chainCount + 1 }
      else mapGet acc tool := by
  unfold suggestFold matchStepB chainProduct
  simp only []
  by_cases h1 : getMatchingPrefixLength prev c.sequence = prev.length
  · rw [h1]
    by_cases h2 : prev.length < c.sequence.length
    · rw [if_pos ⟨rfl, h2⟩]
      by_cases htool : c.sequence.getD prev.length "" = tool
      · rw [if_pos (by
          simp only [Bool.and_eq_true, decide_eq_true_eq]
          exact ⟨⟨by simp, h2⟩, htool⟩)]
        rw [htool]
        exact mapGet_mapSet_self acc tool _
      · rw [if_neg (by
          simp only [Bool.and_eq_true, decide_eq_true_eq]
          rintro ⟨-, hc⟩
          exact htool hc)]
        exact mapGet_mapSet_ne acc _ tool _ htool
    · rw [if_neg (by rintro ⟨-, hc⟩; exact h2 hc), if_neg (by
        simp only [Bool.and_eq_true, decide_eq_true_eq]
        rintro ⟨⟨-, hc⟩, -⟩
        exact h2 hc)]
  · rw [if_neg (fun hc => h1 hc.1), if_neg (by
      simp only [Bool.and_eq_true, decide_eq_true_eq]
      rintro ⟨⟨hc, -⟩, -⟩
      exact h1 hc)]

/-- Helper: one loop iteration preserves distinctness of suggestion keys. -/
theorem suggestFold_nodup (prev : List String) (acc : List (String × SugAcc))
    (c : ToolChain) (h : (acc.map Prod.fst).Nodup) :
    ((suggestFold prev acc c).map Prod.fst).Nodup := by
  unfold suggestFold
  simp only []
  split
  · exact mapSet_nodup _ _ _ h
  · exact h

/-- Helper: the accumulated suggestion map after the whole chain loop:
presence of a tool, its accumulated confidence (a running maximum seeded by
the incoming accumulator), and key distinctness. -/
theorem suggestFold_fold_spec (prev : List String) :
    ∀ (cs : List ToolChain) (acc : List (String × SugAcc)),
      (∀ tool, (mapGet (cs.foldl (suggestFold prev) acc) tool).isSome ↔
        ((mapGet acc tool).isSome ∨ ∃ c ∈ cs, matchStepB prev tool c = true)) ∧
      (∀ tool a, mapGet (cs.foldl (suggestFold prev) acc) tool = some a →
        a.confidence = ((cs.filter (matchStepB prev tool)).map chainProduct).foldl max
          ((mapGet acc tool).getD ⟨0, [], 0⟩).confidence) ∧
      ((acc.map Prod.fst).Nodup →
        ((cs.foldl (suggestFold prev) acc).map Prod.fst).Nodup) := by
  intro cs
  induction cs with
  | nil =>
    intro acc
    refine ⟨by simp, ?_, by simp⟩
    intro tool a h
    simp only [List.foldl_nil] at h
    simp [h]
  | cons c cs ih =>
    intro acc
    have hstep := mapGet_suggestFold prev acc c
    refine ⟨?_, ?_, ?_⟩
    · intro tool
      rw [List.foldl_cons, (ih (suggestFold prev acc c)).1 tool, hstep tool]
      by_cases hm : matchStepB prev tool c = true <;> simp [hm] <;> tauto
    · intro tool a h
      rw [List.foldl_cons] at h
      have h2 := (ih (suggestFold prev acc c)).2.1 tool a h
      rw [hstep tool] at h2
      by_cases hm : matchStepB prev tool c = true
      · rw [if_pos hm] at h2
        rw [List.filter_cons_of_pos hm, List.map_cons, List.foldl_cons]
        simpa using h2
      · rw [if_neg hm] at h2
        rw [List.filter_cons_of_neg (by simpa using hm)]
        exact h2
    · intro hnd
      rw [List.foldl_cons]
      exact (ih (suggestFold prev acc c)).2.2 (suggestFold_nodup prev acc c hnd)

/-- Helper: a running maximum with seed 0 over a nonempty list of nonnegative
rationals is attained and dominates every element. -/
theorem foldl_max_general :
    ∀ (l : List ℚ) (s : ℚ),
      (l.foldl max s = s ∨ l.foldl max s ∈ l) ∧ s ≤ l.foldl max s ∧
        ∀ x ∈ l, x ≤ l.foldl max s := by
  intro l
  induction l with
  | nil => intro s; simp
  | cons y ys ih =>
    intro s
    rw [List.foldl_cons]
    obtain ⟨hmem, hle, hall⟩ := ih (max s y)
    refine ⟨?_, le_trans (le_max_left s y) hle, ?_⟩
    · rcases hmem with h | h
      · rcases max_choice s y with h2 | h2
        · exact Or.inl (h.trans h2)
        · exact Or.inr (by rw [h.trans h2]; exact List.mem_cons_self y ys)
      · exact Or.inr (List.mem_cons_of_mem _ h)
    · intro x hx
      rcases List.mem_cons.1 hx with rfl | hx2
      · exact le_trans (le_max_right s x) hle
      · exact hall x hx2

/-- Helper: inserting into a list is a permutation of consing. -/
theorem insertSorted_perm {α : Type} (le : α → α → Bool) (x : α) :
    ∀ l : List α, (insertSorted le x l).Perm (x :: l) := by
  intro l
  induction l with
  | nil => simp [insertSorted]
  | cons y ys ih =>
    rw [insertSorted]
    split
    · exact (ih.cons y).trans (List.Perm.swap x y ys)
    · exact List.Perm.refl _

/-- Helper: the stable sort permutes its input. -/
theorem stableSort_perm {α : Type} (le : α → α → Bool) (l : List α) :
    (stableSort le l).Perm l := by
  suffices h : ∀ (l acc : List α),
      (l.foldl (fun acc x => insertSorted le x acc) acc).Perm (acc ++ l) by
    simpa using h l []
  intro l
  induction l with
  | nil => intro acc; simp
  | cons d ds ih =>
    intro acc
    rw [List.foldl_cons]
    refine (ih (insertSorted le d acc)).trans ?_
    refine (((insertSorted_perm le d acc).append_right ds).trans ?_)
    exact (List.perm_middle).symm

/-- Helper: insertion preserves sortedness of a total, transitive comparator. -/
theorem insertSorted_pairwise {α : Type} (le : α → α → Bool)
    (htrans : ∀ a b c, le a b = true → le b c = true → le a c = true)
    (htotal : ∀ a b, le a b = true ∨ le b a = true) (x : α) :
    ∀ l : List α, l.Pairwise (fun a b => le a b = true) →
      (insertSorted le x l).Pairwise (fun a b => le a b = true) := by
  intro l
  induction l with
  | nil => intro _; simp [insertSorted]
  | cons y ys ih =>
    intro h
    rw [List.pairwise_cons] at h
    rw [insertSorted]
    split
    · rename_i hyx
      rw [List.pairwise_cons]
      refine ⟨?_, ih h.2⟩
      intro z hz
      have hzmem : z ∈ x :: ys := (insertSorted_perm le x ys).mem_iff.1 hz
      rcases List.mem_cons.1 hzmem with rfl | hzys
      · exact hyx
      · exact h.1 z hzys
    · rename_i hyx
      have hxy : le x y = true := by
        rcases htotal x y with h2 | h2
        · exact h2
        · exact absurd h2 hyx
      rw [List.pairwise_cons]
      refine ⟨?_, List.pairwise_cons.2 h⟩
      intro z hz
      rcases List.mem_cons.1 hz with rfl | hzys
      · exact hxy
      · exact htrans x y z hxy (h.1 z hzys)

/-- Helper: the stable sort sorts, for a total, transitive comparator. -/
theorem stableSort_pairwise {α : Type} (le : α → α → Bool)
    (htrans : ∀ a b c, le a b = true → le b c = true → le a c = true)
    (htotal : ∀ a b, le a b = true ∨ le b a = true) (l : List α) :
    (stableSort le l).Pairwise (fun a b => le a b = true) := by
  suffices h : ∀ (l acc : List α), acc.Pairwise (fun a b => le a b = true) →
      (l.foldl (fun acc x => insertSorted le x acc) acc).Pairwise
        (fun a b => le a b = true) by
    exact h l [] (by simp)
  intro l
  induction l with
  | nil => intro acc h; simpa using h
  | cons d ds ih =>
    intro acc h
    rw [List.foldl_cons]
    exact ih _ (insertSorted_pairwise le htrans htotal d acc h)

/-- Helper: a member of `suggestNextTool`'s result is an entry of the
accumulated suggestion map, and conversely. -/
theorem mem_suggestNextTool (lib : LibState) (prev : List String) (s : Suggestion) :
    s ∈ suggestNextTool lib prev ↔
      ∃ a : SugAcc,
        mapGet ((lib.chains.map Prod.snd).foldl (suggestFold prev) []) s.toolName =
            some a ∧
          s = ⟨s.toolName, a.confidence, a.reasons⟩ := by
  unfold suggestNextTool
  have hperm := stableSort_perm (fun a b => decide (b.confidence ≤ a.confidence))
    (((lib.chains.foldl (fun acc kv => suggestFold prev acc kv.2) [])).map
      (fun kv => Suggestion.mk kv.1 kv.2.confidence kv.2.reasons))
  have hfold : lib.chains.foldl (fun acc kv => suggestFold prev acc kv.2) [] =
      (lib.chains.map Prod.snd).foldl (suggestFold prev) [] := by
    rw [List.foldl_map]
  rw [hperm.mem_iff, hfold, List.mem_map]
  have hnd : ((((lib.chains.map Prod.snd).foldl (suggestFold prev) []).map
      Prod.fst)).Nodup :=
    (suggestFold_fold_spec prev (lib.chains.map Prod.snd) []).2.2 (by simp)
  constructor
  · rintro ⟨⟨tool, a⟩, hmem, rfl⟩
    exact ⟨a, mem_mapGet _ _ _ hnd hmem, rfl⟩
  · rintro ⟨a, hget, hs⟩
    exact ⟨(s.toolName, a), mapGet_mem _ _ _ hget, by rw [← hs]⟩

/-- Helper: the tools suggested by `suggestNextTool` are exactly the
next tools of the chains having `prev` as an exact, non-full prefix. -/
theorem suggestNextTool_names (lib : LibState) (prev : List String) (tool : String) :
    (∃ s ∈ suggestNextTool lib prev, s.toolName = tool) ↔
      ∃ kc ∈ lib.chains, matchStepB prev tool kc.2 = true := by
  constructor
  · rintro ⟨s, hs, rfl⟩
    obtain ⟨a, hget, -⟩ := (mem_suggestNextTool lib prev s).1 hs
    have hsome : (mapGet ((lib.chains.map Prod.snd).foldl (suggestFold prev) [])
        s.toolName).isSome := by rw [hget]; rfl
    have := ((suggestFold_fold_spec prev (lib.chains.map Prod.snd) []).1 s.toolName).1 hsome
    rcases this with h | ⟨c, hc, hm⟩
    · simp [mapGet] at h
    · obtain ⟨kc, hkc, rfl⟩ := List.mem_map.1 hc
      exact ⟨kc, hkc, hm⟩
  · rintro ⟨kc, hkc, hm⟩
    have hsome : (mapGet ((lib.chains.map Prod.snd).foldl (suggestFold prev) [])
        tool).isSome := by
      refine ((suggestFold_fold_spec prev (lib.chains.map Prod.snd) []).1 tool).2 ?_
      exact Or.inr ⟨kc.2, List.mem_map.2 ⟨kc, hkc, rfl⟩, hm⟩
    obtain ⟨a, hget⟩ := (mapGet_isSome_iff _ _).1 hsome
    refine ⟨⟨tool, a.confidence, a.reasons⟩, ?_, rfl⟩
    exact (mem_suggestNextTool lib prev _).2 ⟨a, hget, rfl⟩

/-- Helper: the suggested tool names are distinct (one suggestion per tool). -/
theorem suggestNextTool_names_nodup (lib : LibState) (prev : List String) :
    ((suggestNextTool lib prev).map Suggestion.toolName).Nodup := by
  unfold suggestNextTool
  have hfold : lib.chains.foldl (fun acc kv => suggestFold prev acc kv.2) [] =
      (lib.chains.map Prod.snd).foldl (suggestFold prev) [] := by
    rw [List.foldl_map]
  rw [hfold]
  have hperm := stableSort_perm (fun a b => decide (b.confidence ≤ a.confidence))
    ((((lib.chains.map Prod.snd).foldl (suggestFold prev) [])).map
      (fun kv => Suggestion.mk kv.1 kv.2.confidence kv.2.reasons))
  have hnd : ((((lib.chains.map Prod.snd).foldl (suggestFold prev) []).map
      Prod.fst)).Nodup :=
    (suggestFold_fold_spec prev (lib.chains.map Prod.snd) []).2.2 (by simp)
  have hmapped : ((((lib.chains.map Prod.snd).foldl (suggestFold prev) []).map
      (fun kv => Suggestion.mk kv.1 kv.2.confidence kv.2.reasons)).map
        Suggestion.toolName).Nodup := by
    rw [List.map_map]
    exact hnd
  exact ((hperm.map Suggestion.toolName).nodup_iff).2 hmapped

/-- Helper: each suggestion's confidence is the maximum of
`successRate * averageConfidence` over the chains contributing its tool. -/
theorem suggestNextTool_score (lib : LibState) (prev : List String)
    (hnn : ∀ kc ∈ lib.chains, 0 ≤ chainProduct kc.2) :
    ∀ s ∈ suggestNextTool lib prev,
      (∃ kc ∈ lib.chains, matchStepB prev s.toolName kc.2 = true ∧
        s.confidence = chainProduct kc.2) ∧
      (∀ kc ∈ lib.chains, matchStepB prev s.toolName kc.2 = true →
        chainProduct kc.2 ≤ s.confidence) := by
  intro s hs
  obtain ⟨a, hget, hseq⟩ := (mem_suggestNextTool lib prev s).1 hs
  have hconf := (suggestFold_fold_spec prev (lib.chains.map Prod.snd) []).2.1
    s.toolName a hget
  simp only [mapGet, Option.getD_none] at hconf
  have hsconf : s.confidence = a.confidence := by rw [hseq]
  set l := (((lib.chains.map Prod.snd).filter (matchStepB prev s.toolName)).map
    chainProduct) with hl
  have hlnn : ∀ x ∈ l, 0 ≤ x := by
    intro x hx
    obtain ⟨c, hc, rfl⟩ := List.mem_map.1 hx
    obtain ⟨kc, hkc, rfl⟩ := List.mem_map.1 (List.mem_of_mem_filter hc)
    exact hnn kc hkc
  have hlne : l ≠ [] := by
    have hsome : (mapGet ((lib.chains.map Prod.snd).foldl (suggestFold prev) [])
        s.toolName).isSome := by rw [hget]; rfl
    have := ((suggestFold_fold_spec prev (lib.chains.map Prod.snd) []).1
      s.toolName).1 hsome
    rcases this with h | ⟨c, hc, hm⟩
    · simp [mapGet] at h
    · intro hemp
      have : chainProduct c ∈ l :=
        List.mem_map.2 ⟨c, List.mem_filter.2 ⟨hc, hm⟩, rfl⟩
      rw [hemp] at this
      cases this
    -- the filtered product list is nonempty
  obtain ⟨hattain, -, hdom⟩ := foldl_max_general l 0
  constructor
  · have hmem : l.foldl max 0 ∈ l := by
      rcases hattain with h0 | hmem
      · rcases List.exists_mem_of_ne_nil l hlne with ⟨y, hy⟩
        have hy0 : y = 0 := le_antisymm (h0 ▸ hdom y hy) (hlnn y hy)
        rw [h0, ← hy0]
        exact hy
      · exact hmem
    obtain ⟨c, hc, hcp⟩ := List.mem_map.1 hmem
    obtain ⟨kc, hkc, rfl⟩ := List.mem_map.1 (List.mem_of_mem_filter hc)
    exact ⟨kc, hkc, (List.mem_filter.1 hc).2, by rw [hsconf, hconf]; exact hcp.symm⟩
  · intro kc hkc hm
    have : chainProduct kc.2 ∈ l :=
      List.mem_map.2 ⟨kc.2, List.mem_filter.2 ⟨List.mem_map.2 ⟨kc, hkc, rfl⟩, hm⟩, rfl⟩
    rw [hsconf, hconf]
    exact hdom _ this

/-- Helper: suggestions come out sorted by confidence, descending
(the comparator `(a, b) => b.confidence - a.confidence`). -/
theorem suggestNextTool_sorted (lib : LibState) (prev : List String) :
    (suggestNextTool lib prev).Pairwise (fun a b => b.confidence ≤ a.confidence) := by
  unfold suggestNextTool
  refine List.Pairwise.imp ?_ (stableSort_pairwise _ ?_ ?_ _)
  · intro a b h
    simpa using h
  · intro a b c h1 h2
    simp only [decide_eq_true_eq] at h1 h2 ⊢
    exact le_trans h2 h1
  · intro a b
    simpa using le_total b.confidence a.confidence

/-- C9.  Round trip: recording tools a, b, c and completing successfully with
confidence 0.9 stores exactly one chain, and `suggestNextTool(["a","b"])`
returns c with score 0.9 as the only (hence top) suggestion.  In general a
tool is suggested exactly when some stored chain has `previousTools` as an
exact, non-full prefix followed by that tool; its score is the maximum of
`successRate * averageConfidence` over those chains (all chain products being
nonnegative); and the suggestions come back sorted by score descending. -/
theorem c9_tool_chain_round_trip :
    (roundTripLib.chains.length = 1 ∧
      (suggestNextTool roundTripLib ["a", "b"]).map
          (fun s => (s.toolName, s.confidence)) = [("c", 0.9)]) ∧
    (∀ (lib : LibState) (prev : List String) (tool : String),
      (∃ s ∈ suggestNextTool lib prev, s.toolName = tool) ↔
        ∃ kc ∈ lib.chains, matchStepB prev tool kc.2 = true) ∧
    (∀ (lib : LibState) (prev : List String),
      (∀ kc ∈ lib.chains, 0 ≤ chainProduct kc.2) →
      ∀ s ∈ suggestNextTool lib prev,
        (∃ kc ∈ lib.chains, matchStepB prev s.toolName kc.2 = true ∧
          s.confidence = chainProduct kc.2) ∧
        (∀ kc ∈ lib.chains, matchStepB prev s.toolName kc.2 = true →
          chainProduct kc.2 ≤ s.confidence)) ∧
    (∀ (lib : LibState) (prev : List String),
      (suggestNextTool lib prev).Pairwise (fun a b => b.confidence ≤ a.confidence)) := by
  refine ⟨⟨?_, ?_⟩, suggestNextTool_names, suggestNextTool_score,
    suggestNextTool_sorted⟩
  · norm_num [roundTripLib, completeChain, recordToolUse, LibState.initial,
      getChainKey, mapGet, mapSet, jsOrHalf]
  · norm_num [roundTripLib, completeChain, recordToolUse, LibState.initial,
      getChainKey, mapGet, mapSet, jsOrHalf, suggestNextTool, suggestFold,
      getMatchingPrefixLength, stableSort, insertSorted]

/-- Witness for C9's quantified parts at the round-trip library: the
suggestion c exists because the stored chain matches, its score is the
matching maximum, and the one-element output is trivially sorted. -/
theorem c9_tool_chain_round_trip_witness :
    (∃ s ∈ suggestNextTool roundTripLib ["a", "b"], s.toolName = "c") ∧
    (∀ s ∈ suggestNextTool roundTripLib ["a", "b"],
      (∃ kc ∈ roundTripLib.chains, matchStepB ["a", "b"] s.toolName kc.2 = true ∧
        s.confidence = chainProduct kc.2) ∧
      (∀ kc ∈ roundTripLib.chains, matchStepB ["a", "b"] s.toolName kc.2 = true →
        chainProduct kc.2 ≤ s.confidence)) ∧
    (suggestNextTool roundTripLib ["a", "b"]).Pairwise
      (fun a b => b.confidence ≤ a.confidence) := by
  refine ⟨?_, ?_, c9_tool_chain_round_trip.2.2.2 roundTripLib ["a", "b"]⟩
  · refine (c9_tool_chain_round_trip.2.1 roundTripLib ["a", "b"] "c").2 ?_
    refine ⟨(getChainKey ["a", "b", "c"],
      ⟨"chain-1", ["a", "b", "c"], "", 1, 1, 0.9, 0⟩), ?_, ?_⟩
    · norm_num [roundTripLib, completeChain, recordToolUse, LibState.initial,
        mapGet, mapSet, jsOrHalf]
      decide
    · norm_num [matchStepB, getMatchingPrefixLength]
  · refine c9_tool_chain_round_trip.2.2.1 roundTripLib ["a", "b"] ?_
    intro kc hkc
    have : kc = (getChainKey ["a", "b", "c"],
        ⟨"chain-1", ["a", "b", "c"], "", 1, 1, 0.9, 0⟩) := by
      revert hkc
      norm_num [roundTripLib, completeChain, recordToolUse, LibState.initial,
        mapGet, mapSet, jsOrHalf]
      intro h
      rw [h]
      norm_num [getChainKey]
      decide
    rw [this]
    norm_num [chainProduct]

/-- C10.  With an empty previous-tools list, every stored (nonempty) chain
matches, so `suggestNextTool` returns one suggestion per distinct first tool
of the stored chains, not an empty list. -/
theorem c10_empty_previous_tools (lib : LibState)
    (hne : ∀ kc ∈ lib.chains, kc.2.sequence ≠ []) :
    (∀ tool, (∃ s ∈ suggestNextTool lib [], s.toolName = tool) ↔
      ∃ kc ∈ lib.chains, kc.2.sequence.head? = some tool) ∧
    ((suggestNextTool lib []).map Suggestion.toolName).Nodup ∧
    (lib.chains ≠ [] → suggestNextTool lib [] ≠ []) := by
  have hmatch : ∀ kc ∈ lib.chains, ∀ tool,
      (matchStepB [] tool kc.2 = true ↔ kc.2.sequence.head? = some tool) := by
    intro kc hkc tool
    rcases hseq : kc.2.sequence with _ | ⟨x, xs⟩
    · exact absurd hseq (hne kc hkc)
    · simp [matchStepB, getMatchingPrefixLength, hseq]
  refine ⟨?_, suggestNextTool_names_nodup lib [], ?_⟩
  · intro tool
    rw [suggestNextTool_names lib [] tool]
    constructor
    · rintro ⟨kc, hkc, hm⟩
      exact ⟨kc, hkc, (hmatch kc hkc tool).1 hm⟩
    · rintro ⟨kc, hkc, hm⟩
      exact ⟨kc, hkc, (hmatch kc hkc tool).2 hm⟩
  · intro hchains
    rcases hc : lib.chains with _ | ⟨kc, rest⟩
    · exact absurd hc hchains
    · have hkc : kc ∈ lib.chains := by rw [hc]; exact List.mem_cons_self kc rest
      rcases hseq : kc.2.sequence with _ | ⟨x, xs⟩
      · exact absurd hseq (hne kc hkc)
      · have : ∃ s ∈ suggestNextTool lib [], s.toolName = x := by
          rw [suggestNextTool_names lib [] x]
          exact ⟨kc, hkc, (hmatch kc hkc x).2 (by rw [hseq]; rfl)⟩
        obtain ⟨s, hs, -⟩ := this
        intro hemp
        rw [hemp] at hs
        cases hs

/-- Witness for C10 at a one-chain library: the chain a → b contributes its
first tool a. -/
theorem c10_empty_previous_tools_witness :
    (∀ tool,
      (∃ s ∈ suggestNextTool ⟨[("a->b", ⟨"chain-1", ["a", "b"], "", 1, 1, 0.9, 0⟩)],
          [], 1⟩ [], s.toolName = tool) ↔
      ∃ kc ∈ ([("a->b", (⟨"chain-1", ["a", "b"], "", 1, 1, 0.9, 0⟩ : ToolChain))] :
          List (String × ToolChain)), kc.2.sequence.head? = some tool) ∧
    ((suggestNextTool ⟨[("a->b", ⟨"chain-1", ["a", "b"], "", 1, 1, 0.9, 0⟩)],
        [], 1⟩ []).map Suggestion.toolName).Nodup ∧
    (([("a->b", (⟨"chain-1", ["a", "b"], "", 1, 1, 0.9, 0⟩ : ToolChain))] :
        List (String × ToolChain)) ≠ [] →
      suggestNextTool ⟨[("a->b", ⟨"chain-1", ["a", "b"], "", 1, 1, 0.9, 0⟩)],
        [], 1⟩ [] ≠ []) :=
  c10_empty_previous_tools
    ⟨[("a->b", ⟨"chain-1", ["a", "b"], "", 1, 1, 0.9, 0⟩)], [], 1⟩
    (by intro kc hkc; simp at hkc; rw [hkc]; simp)

/-- Helper: with auto-backtrack disabled, `shouldBacktrack` never proposes
backtracking (it only distinguishes the two non-backtracking reasons). -/
theorem shouldBacktrack_disabled (cfg : BacktrackingConfig) (st : BTMState)
    (t : ThoughtData) (h : cfg.enableAutoBacktrack = false) :
    (shouldBacktrack cfg st t).1.shouldBacktrack = false := by
  unfold shouldBacktrack
  rcases t.confidence with _ | c
  · rfl
  · simp only [h]
    split <;> simp

/-- Helper: the thought returned by `recordStep` is `recordStepThought`. -/
theorem recordStep_fst (deps : ProcDeps) (t : ThoughtData) (lib : LibState) :
    (recordStep deps t lib).1 = recordStepThought t := by
  unfold recordStep recordStepThought
  rcases t.current_step with _ | cs <;> simp

/-- Helper: `updateBranches` does not touch the session history. -/
theorem updateBranches_thoughtHistory (deps : ProcDeps) (st : ProcState)
    (t : ThoughtData) :
    (updateBranches deps st t).thoughtHistory = st.thoughtHistory := by
  unfold updateBranches
  split
  · simp only []
    repeat' split
    all_goals rfl
  · rfl

/-- Helper: `updateDAG` does not touch the session history. -/
theorem updateDAG_thoughtHistory (deps : ProcDeps) (now : Int) (st : ProcState)
    (t : ThoughtData) :
    (updateDAG deps now st t).2.thoughtHistory = st.thoughtHistory := by
  unfold updateDAG
  split
  · rfl
  · simp only []
    split <;> rfl

/-- Helper: `persistThought` does not touch the session history. -/
theorem persistThought_thoughtHistory (deps : ProcDeps) (now : Int)
    (st : ProcState) (t : ThoughtData) :
    (persistThought deps now st t).thoughtHistory = st.thoughtHistory := rfl

/-- C7.  When the backtracking policy decides to backtrack on the prepared
step, `processThought` returns the backtrack-suggestion payload
(`backtracking_suggested: true` with the reason and target step) and the only
state change is inside the backtracking manager: the session history, branch
map, branch order, dependency graph, tool-chain library, persisted log, and
both circuit breakers are exactly those of the incoming state. -/
theorem c7_backtrack_short_circuit (deps : ProcDeps) (now : Int) (st : ProcState)
    (input : ThoughtData)
    (h : (shouldBacktrack deps.btConfig st.btm
        (prepareThought deps.btConfig input)).1.shouldBacktrack = true) :
    processThought deps now st input =
      (.backtrack
        { thought_number := (prepareThought deps.btConfig input).thought_number,
          total_thoughts := (prepareThought deps.btConfig input).total_thoughts,
          confidence := (prepareThought deps.btConfig input).confidence,
          backtracking_suggested := true,
          backtrack_reason := (shouldBacktrack deps.btConfig st.btm
            (prepareThought deps.btConfig input)).1.reason,
          backtrack_to_thought := (shouldBacktrack deps.btConfig st.btm
            (prepareThought deps.btConfig input)).1.backtrackTo },
        { st with btm := (shouldBacktrack deps.btConfig st.btm
            (prepareThought deps.btConfig input)).2 }) := by
  unfold processThought
  simp only []
  rw [if_pos h]

/-- Witness for C7: a fresh processor state, minConfidence 0.4 with
auto-backtrack enabled, and step 3 arriving with confidence 0.1. -/
theorem c7_backtrack_short_circuit_witness :
    processThought
        ⟨{ defaultBacktrackingConfig with
            minConfidence := 0.4, enableAutoBacktrack := true },
          defaultToolChainScoring, ⟨3, 5000, 1, none⟩, ⟨3, 2000, 1, none⟩,
          true, true, 10, "session-1"⟩ 0
        ⟨[], [], [], ⟨[], []⟩, DAGState.initial, LibState.initial, [],
          ⟨.closed, 0, 0, 0⟩, ⟨.closed, 0, 0, 0⟩⟩
        ⟨[], "low", 3, 3, none, none, none, none, none, true, none, none, none,
          some 0.1⟩ =
      (.backtrack
        { thought_number := (prepareThought { defaultBacktrackingConfig with
              minConfidence := 0.4, enableAutoBacktrack := true }
            ⟨[], "low", 3, 3, none, none, none, none, none, true, none, none, none,
              some 0.1⟩).thought_number,
          total_thoughts := (prepareThought { defaultBacktrackingConfig with
              minConfidence := 0.4, enableAutoBacktrack := true }
            ⟨[], "low", 3, 3, none, none, none, none, none, true, none, none, none,
              some 0.1⟩).total_thoughts,
          confidence := (prepareThought { defaultBacktrackingConfig with
              minConfidence := 0.4, enableAutoBacktrack := true }
            ⟨[], "low", 3, 3, none, none, none, none, none, true, none, none, none,
              some 0.1⟩).confidence,
          backtracking_suggested := true,
          backtrack_reason := (shouldBacktrack { defaultBacktrackingConfig with
              minConfidence := 0.4, enableAutoBacktrack := true } ⟨[], []⟩
            (prepareThought { defaultBacktrackingConfig with
                minConfidence := 0.4, enableAutoBacktrack := true }
              ⟨[], "low", 3, 3, none, none, none, none, none, true, none, none, none,
                some 0.1⟩)).1.reason,
          backtrack_to_thought := (shouldBacktrack { defaultBacktrackingConfig with
              minConfidence := 0.4, enableAutoBacktrack := true } ⟨[], []⟩
            (prepareThought { defaultBacktrackingConfig with
                minConfidence := 0.4, enableAutoBacktrack := true }
              ⟨[], "low", 3, 3, none, none, none, none, none, true, none, none, none,
                some 0.1⟩)).1.backtrackTo },
        ⟨[], [], [], (shouldBacktrack { defaultBacktrackingConfig with
            minConfidence := 0.4, enableAutoBacktrack := true } ⟨[], []⟩
          (prepareThought { defaultBacktrackingConfig with
              minConfidence := 0.4, enableAutoBacktrack := true }
            ⟨[], "low", 3, 3, none, none, none, none, none, true, none, none, none,
              some 0.1⟩)).2, DAGState.initial, LibState.initial, [],
          ⟨.closed, 0, 0, 0⟩, ⟨.closed, 0, 0, 0⟩⟩) :=
  c7_backtrack_short_circuit
    ⟨{ defaultBacktrackingConfig with
        minConfidence := 0.4, enableAutoBacktrack := true },
      defaultToolChainScoring, ⟨3, 5000, 1, none⟩, ⟨3, 2000, 1, none⟩,
      true, true, 10, "session-1"⟩ 0
    ⟨[], [], [], ⟨[], []⟩, DAGState.initial, LibState.initial, [],
      ⟨.closed, 0, 0, 0⟩, ⟨.closed, 0, 0, 0⟩⟩
    ⟨[], "low", 3, 3, none, none, none, none, none, true, none, none, none,
      some 0.1⟩
    (by norm_num [shouldBacktrack, prepareThought, mapSet, defaultBacktrackingConfig])

/-- Helper: `enforceHistoryLimit` is dropping everything beyond the cap from
the front. -/
theorem enforceHistoryLimit_eq_drop (maxHistorySize : Nat) (h : List ThoughtData) :
    enforceHistoryLimit maxHistorySize h = h.drop (h.length - maxHistorySize) := by
  unfold enforceHistoryLimit
  split
  · rfl
  · rename_i hle
    have : h.length - maxHistorySize = 0 := by omega
    rw [this, List.drop_zero]

/-- Helper: with auto-backtrack disabled, one `processThought` call appends the
processed step to history and trims from the front. -/
theorem processThought_history (deps : ProcDeps) (now : Int) (st : ProcState)
    (t : ThoughtData) (hauto : deps.btConfig.enableAutoBacktrack = false) :
    (processThought deps now st t).2.thoughtHistory =
      enforceHistoryLimit deps.maxHistorySize
        (st.thoughtHistory ++ [processedThought deps.btConfig t]) := by
  unfold processThought
  simp only []
  rw [if_neg (by
    rw [shouldBacktrack_disabled deps.btConfig st.btm
      (prepareThought deps.btConfig t) hauto]
    simp)]
  simp only []
  rw [persistThought_thoughtHistory, updateBranches_thoughtHistory]
  simp only []
  rw [updateDAG_thoughtHistory]
  simp only [recordStep_fst]
  rfl

/-- Helper: with auto-backtrack disabled, a processed trace keeps exactly the
most recent `maxHistorySize` processed steps, evicting from the front. -/
theorem runThoughts_history (deps : ProcDeps) (now : Int)
    (hauto : deps.btConfig.enableAutoBacktrack = false) :
    ∀ (ts : List ThoughtData) (st : ProcState),
      st.thoughtHistory.length ≤ deps.maxHistorySize →
      (runThoughts deps now st ts).thoughtHistory =
        (st.thoughtHistory ++ ts.map (processedThought deps.btConfig)).drop
          ((st.thoughtHistory.length + ts.length) - deps.maxHistorySize) := by
  intro ts
  induction ts with
  | nil =>
    intro st hlen
    rw [runThoughts]
    simp only [List.map_nil, List.append_nil, List.length_nil]
    rw [show st.thoughtHistory.length + 0 - deps.maxHistorySize = 0 by omega,
      List.drop_zero]
  | cons t ts ih =>
    intro st hlen
    rw [runThoughts]
    have hstep := processThought_history deps now st t hauto
    rw [enforceHistoryLimit_eq_drop] at hstep
    have hlen2 : (processThought deps now st t).2.thoughtHistory.length ≤
        deps.maxHistorySize := by
      rw [hstep, List.length_drop]
      simp only [List.length_append, List.length_cons]
      omega
    rw [ih _ hlen2, hstep]
    have hdle : ((st.thoughtHistory ++ [processedThought deps.btConfig t]).length -
        deps.maxHistorySize) ≤
        (st.thoughtHistory ++ [processedThought deps.btConfig t]).length := by
      omega
    rw [← List.drop_append_of_le_length hdle, List.drop_drop, List.length_drop]
    have hB : (st.thoughtHistory ++ [processedThought deps.btConfig t]).length =
        st.thoughtHistory.length + 1 := by simp
    rw [hB]
    simp only [List.length_cons, List.map_cons, List.append_assoc,
      List.singleton_append]
    congr 1
    omega

/-- C8.  With auto-backtrack disabled (so every step completes the pipeline),
processing `maxHistorySize + k` steps from an empty history leaves exactly
`maxHistorySize` entries: the last `maxHistorySize` processed steps, the `k`
oldest having been evicted from the front. -/
theorem c8_history_bound (deps : ProcDeps) (now : Int) (st : ProcState)
    (ts : List ThoughtData) (k : Nat)
    (hauto : deps.btConfig.enableAutoBacktrack = false)
    (hinit : st.thoughtHistory = [])
    (hlen : ts.length = deps.maxHistorySize + k) (hk : 0 < k) :
    (runThoughts deps now st ts).thoughtHistory =
        (ts.map (processedThought deps.btConfig)).drop k ∧
      (runThoughts deps now st ts).thoughtHistory.length = deps.maxHistorySize := by
  have h1 := runThoughts_history deps now hauto ts st (by rw [hinit]; simp)
  rw [hinit] at h1
  simp only [List.nil_append, List.length_nil, Nat.zero_add] at h1
  have hk2 : ts.length - deps.maxHistorySize = k := by omega
  rw [hk2] at h1
  refine ⟨h1, ?_⟩
  rw [h1, List.length_drop, List.length_map]
  omega

/-- Witness for C8: cap 2, three trivial steps, the oldest evicted. -/
theorem c8_history_bound_witness :
    (runThoughts
        ⟨defaultBacktrackingConfig, defaultToolChainScoring,
          ⟨3, 5000, 1, none⟩, ⟨3, 2000, 1, none⟩, true, true, 2, "session-1"⟩ 0
        ⟨[], [], [], ⟨[], []⟩, DAGState.initial, LibState.initial, [],
          ⟨.closed, 0, 0, 0⟩, ⟨.closed, 0, 0, 0⟩⟩
        [⟨[], "t1", 1, 3, none, none, none, none, none, true, none, none, none,
            some 0.6⟩,
          ⟨[], "t2", 2, 3, none, none, none, none, none, true, none, none, none,
            some 0.6⟩,
          ⟨[], "t3", 3, 3, none, none, none, none, none, false, none, none, none,
            some 0.6⟩]).thoughtHistory =
      (([⟨[], "t1", 1, 3, none, none, none, none, none, true, none, none, none,
            some 0.6⟩,
          ⟨[], "t2", 2, 3, none, none, none, none, none, true, none, none, none,
            some 0.6⟩,
          ⟨[], "t3", 3, 3, none, none, none, none, none, false, none, none, none,
            some 0.6⟩] : List ThoughtData).map
        (processedThought defaultBacktrackingConfig)).drop 1 ∧
    (runThoughts
        ⟨defaultBacktrackingConfig, defaultToolChainScoring,
          ⟨3, 5000, 1, none⟩, ⟨3, 2000, 1, none⟩, true, true, 2, "session-1"⟩ 0
        ⟨[], [], [], ⟨[], []⟩, DAGState.initial, LibState.initial, [],
          ⟨.closed, 0, 0, 0⟩, ⟨.closed, 0, 0, 0⟩⟩
        [⟨[], "t1", 1, 3, none, none, none, none, none, true, none, none, none,
            some 0.6⟩,
          ⟨[], "t2", 2, 3, none, none, none, none, none, true, none, none, none,
            some 0.6⟩,
          ⟨[], "t3", 3, 3, none, none, none, none, none, false, none, none, none,
            some 0.6⟩]).thoughtHistory.length = 2 :=
  c8_history_bound
    ⟨defaultBacktrackingConfig, defaultToolChainScoring,
      ⟨3, 5000, 1, none⟩, ⟨3, 2000, 1, none⟩, true, true, 2, "session-1"⟩ 0
    ⟨[], [], [], ⟨[], []⟩, DAGState.initial, LibState.initial, [],
      ⟨.closed, 0, 0, 0⟩, ⟨.closed, 0, 0, 0⟩⟩
    _ 1 rfl rfl (by norm_num) (by norm_num)

/-- C2 (evidence of the divergence from the repository's own test).  On the
revision chain 1 ← 2 ← 3 the first `getParallelGroups` call computes
`[[1],[2],[3]]` and stores that very list as the cache (marked clean); the
second call, with no mutation in between, hits the `!cacheDirty &&
parallelGroupsCache` branch and returns the stored cache itself with the state
untouched — the same (frozen, in the source) snapshot, not an independently
mutable copy as the test `caches parallel groups ... without sharing
references` asserts. -/
theorem c2_parallel_groups_cache_shared :
    (getParallelGroups (addThought (addThought (addThought DAGState.initial
        ⟨[], "t1", 1, 3, none, none, none, none, none, true, none, none, none, none⟩)
        ⟨[], "t2", 2, 3, none, some 1, none, none, none, true, none, none, none, none⟩)
        ⟨[], "t3", 3, 3, none, some 2, none, none, none, true, none, none, none,
          none⟩)).1 = .ok [[1], [2], [3]] ∧
    (getParallelGroups (addThought (addThought (addThought DAGState.initial
        ⟨[], "t1", 1, 3, none, none, none, none, none, true, none, none, none, none⟩)
        ⟨[], "t2", 2, 3, none, some 1, none, none, none, true, none, none, none, none⟩)
        ⟨[], "t3", 3, 3, none, some 2, none, none, none, true, none, none, none,
          none⟩)).2.parallelGroupsCache = some [[1], [2], [3]] ∧
    (getParallelGroups (addThought (addThought (addThought DAGState.initial
        ⟨[], "t1", 1, 3, none, none, none, none, none, true, none, none, none, none⟩)
        ⟨[], "t2", 2, 3, none, some 1, none, none, none, true, none, none, none, none⟩)
        ⟨[], "t3", 3, 3, none, some 2, none, none, none, true, none, none, none,
          none⟩)).2.cacheDirty = false ∧
    getParallelGroups ((getParallelGroups (addThought (addThought (addThought
        DAGState.initial
        ⟨[], "t1", 1, 3, none, none, none, none, none, true, none, none, none, none⟩)
        ⟨[], "t2", 2, 3, none, some 1, none, none, none, true, none, none, none, none⟩)
        ⟨[], "t3", 3, 3, none, some 2, none, none, none, true, none, none, none,
          none⟩)).2) =
      (.ok [[1], [2], [3]],
        (getParallelGroups (addThought (addThought (addThought DAGState.initial
          ⟨[], "t1", 1, 3, none, none, none, none, none, true, none, none, none, none⟩)
          ⟨[], "t2", 2, 3, none, some 1, none, none, none, true, none, none, none, none⟩)
          ⟨[], "t3", 3, 3, none, some 2, none, none, none, true, none, none, none,
            none⟩)).2) := by
  refine ⟨?_, ?_, ?_, ?_⟩ <;> rfl

/-- Helper: a lookup hit puts the key among the map's keys. -/
theorem mapGet_some_mem_keys {κ α : Type} [DecidableEq κ]
    (m : List (κ × α)) (k : κ) (v : α) (h : mapGet m k = some v) :
    k ∈ m.map Prod.fst :=
  List.mem_map.2 ⟨(k, v), mapGet_mem m k v h, rfl⟩

/-- Helper: the dependency loop never runs out of fuel when its resolver
does not. -/
theorem resolveDeps_no_fuel_error (f : Nat → LMap → LMap → RRes)
    (hf : ∀ d lv lc, f d lv lc ≠ .error .outOfFuel) :
    ∀ (deps : List Nat) (acc : Int) (lv lc : LMap),
      resolveDeps f deps acc lv lc ≠ .error .outOfFuel := by
  intro deps
  induction deps with
  | nil => intro acc lv lc h; simp [resolveDeps] at h
  | cons d ds ih =>
    intro acc lv lc
    rw [resolveDeps]
    cases hr : f d lv lc with
    | error e =>
      have := hf d lv lc
      rw [hr] at this
      exact this
    | ok r =>
      rcases r with ⟨l, lv1, lc1⟩
      exact ih (max acc l) lv1 lc1

/-- Helper: `resolveLevel` never runs out of fuel while the fuel exceeds the
number of node keys outside the visiting stack. -/
theorem resolveLevel_no_fuel_error (nodes : List (Nat × DAGNode)) :
    ∀ (fuel : Nat) (tn : Nat) (lv lc : LMap) (visiting : List Nat),
      ((nodes.map Prod.fst).toFinset \ visiting.toFinset).card < fuel →
      resolveLevel nodes fuel tn lv lc visiting ≠ .error .outOfFuel := by
  intro fuel
  induction fuel with
  | zero =>
    intro tn lv lc visiting hcard
    exact absurd hcard (Nat.not_lt_zero _)
  | succ fuel ih =>
    intro tn lv lc visiting hcard
    rw [resolveLevel]
    cases hm : mapGet lv tn with
    | some l => simp
    | none =>
      simp only []
      by_cases hv : tn ∈ visiting
      · rw [if_pos hv]
        simp
      · rw [if_neg hv]
        cases hn : mapGet nodes tn with
        | none => simp
        | some node =>
          have hkey : tn ∈ nodes.map Prod.fst := mapGet_some_mem_keys _ _ _ hn
          have hcard2 : ((nodes.map Prod.fst).toFinset \
              (tn :: visiting).toFinset).card < fuel := by
            rw [List.toFinset_cons, Finset.sdiff_insert]
            have hmem : tn ∈ (nodes.map Prod.fst).toFinset \ visiting.toFinset :=
              Finset.mem_sdiff.2 ⟨List.mem_toFinset.2 hkey,
                fun hc => hv (List.mem_toFinset.1 hc)⟩
            have := Finset.card_erase_lt_of_mem hmem
            omega
          have hdeps := resolveDeps_no_fuel_error
            (fun d lv1 lc1 => resolveLevel nodes fuel d lv1 lc1 (tn :: visiting))
            (fun d lv1 lc1 => ih d lv1 lc1 (tn :: visiting) hcard2)
            node.dependencies (-1) lv lc
          split
          · simp
          · rename_i node2 heq2
            injection heq2 with hh
            subst hh
            split
            · rename_i e heq
              rw [heq] at hdeps
              simpa using hdeps
            · simp

/-- Helper: the dependency loop preserves the accessibility invariant, keeps
the memo monotone, and leaves every processed dependency memoized. -/
theorem resolveDeps_inv (nodes : List (Nat × DAGNode)) (f : Nat → LMap → LMap → RRes)
    (hf : ∀ d lv lc l lv2 lc2, f d lv lc = .ok (l, lv2, lc2) →
      (∀ k, (mapGet lv k).isSome → (mapGet lv2 k).isSome) ∧
        (mapGet lv2 d).isSome ∧ (domAcc nodes lv → domAcc nodes lv2)) :
    ∀ (deps : List Nat) (acc : Int) (lv lc : LMap) (a : Int) (lv2 lc2 : LMap),
      resolveDeps f deps acc lv lc = .ok (a, lv2, lc2) →
      (∀ k, (mapGet lv k).isSome → (mapGet lv2 k).isSome) ∧
        (∀ d ∈ deps, (mapGet lv2 d).isSome) ∧
        (domAcc nodes lv → domAcc nodes lv2) := by
  intro deps
  induction deps with
  | nil =>
    intro acc lv lc a lv2 lc2 h
    rw [resolveDeps] at h
    injection h with h2
    injection h2 with h3 h4
    injection h4 with h5 h6
    subst h5
    exact ⟨fun k hk => hk, by simp, fun h => h⟩
  | cons d ds ih =>
    intro acc lv lc a lv2 lc2 h
    rw [resolveDeps] at h
    cases hr : f d lv lc with
    | error e => rw [hr] at h; cases h
    | ok r =>
      rcases r with ⟨l, lv1, lc1⟩
      rw [hr] at h
      obtain ⟨hmono1, hd1, hacc1⟩ := hf d lv lc l lv1 lc1 hr
      obtain ⟨hmono2, hds2, hacc2⟩ := ih (max acc l) lv1 lc1 a lv2 lc2 h
      refine ⟨fun k hk => hmono2 k (hmono1 k hk), ?_, fun ha => hacc2 (hacc1 ha)⟩
      intro d2 hd2
      rcases List.mem_cons.1 hd2 with rfl | hmem
      · exact hmono2 d2 hd1
      · exact hds2 d2 hmem

/-- Helper: a successful `resolveLevel` keeps the memo monotone, memoizes the
resolved node, and preserves the accessibility invariant. -/
theorem resolveLevel_inv (nodes : List (Nat × DAGNode)) :
    ∀ (fuel : Nat) (tn : Nat) (lv lc : LMap) (visiting : List Nat)
      (l : Int) (lv2 lc2 : LMap),
      resolveLevel nodes fuel tn lv lc visiting = .ok (l, lv2, lc2) →
      (∀ k, (mapGet lv k).isSome → (mapGet lv2 k).isSome) ∧
        (mapGet lv2 tn).isSome ∧ (domAcc nodes lv → domAcc nodes lv2) := by
  intro fuel
  induction fuel with
  | zero =>
    intro tn lv lc visiting l lv2 lc2 h
    rw [resolveLevel] at h
    cases h
  | succ fuel ih =>
    intro tn lv lc visiting l lv2 lc2 h
    rw [resolveLevel] at h
    cases hm : mapGet lv tn with
    | some l0 =>
      rw [hm] at h
      injection h with h2
      injection h2 with h3 h4
      injection h4 with h5 h6
      subst h5
      exact ⟨fun k hk => hk, by rw [hm]; rfl, fun h => h⟩
    | none =>
      rw [hm] at h
      simp only [] at h
      by_cases hv : tn ∈ visiting
      · rw [if_pos hv] at h; cases h
      · rw [if_neg hv] at h
        cases hn : mapGet nodes tn with
        | none =>
          rw [hn] at h
          injection h with h2
          injection h2 with h3 h4
          injection h4 with h5 h6
          subst h5
          refine ⟨?_, ?_, ?_⟩
          · intro k hk
            by_cases hk2 : tn = k
            · rw [← hk2, mapGet_mapSet_self]; rfl
            · rw [mapGet_mapSet_ne lv tn k 0 hk2]; exact hk
          · rw [mapGet_mapSet_self]; rfl
          · intro ha k hk
            by_cases hk2 : tn = k
            · subst hk2
              refine Acc.intro tn ?_
              intro d hd
              obtain ⟨nd, hnd, -⟩ := hd
              rw [hn] at hnd
              cases hnd
            · rw [mapGet_mapSet_ne lv tn k 0 hk2] at hk
              exact ha k hk
        | some node =>
          rw [hn] at h
          split at h
          · rename_i heq0
            exact absurd heq0 (by simp)
          · rename_i node2 heq2
            injection heq2 with hh
            subst hh
            split at h
            · cases h
            · rename_i mp lvd lcd heq
              injection h with h2
              injection h2 with h3 h4
              injection h4 with h5 h6
              subst h5
              obtain ⟨hmono, hdeps, hacc⟩ := resolveDeps_inv nodes _
                (fun d lv0 lc0 l0 lv20 lc20 hcall =>
                  ih d lv0 lc0 (tn :: visiting) l0 lv20 lc20 hcall)
                node.dependencies (-1) lv lc mp lvd lcd heq
              refine ⟨?_, ?_, ?_⟩
              · intro k hk
                by_cases hk2 : tn = k
                · rw [← hk2, mapGet_mapSet_self]; rfl
                · rw [mapGet_mapSet_ne lvd tn k (mp + 1) hk2]
                  exact hmono k hk
              · rw [mapGet_mapSet_self]; rfl
              · intro ha k hk
                by_cases hk2 : tn = k
                · subst hk2
                  refine Acc.intro tn ?_
                  intro d hd
                  obtain ⟨nd, hnd, hdep⟩ := hd
                  rw [hn] at hnd
                  injection hnd with hnd2
                  subst hnd2
                  exact hacc ha d (hdeps d hdep)
                · rw [mapGet_mapSet_ne lvd tn k (mp + 1) hk2] at hk
                  exact hacc ha k hk

/-- Accessibility transfers to the transitive closure of the relation. -/
theorem acc_transGen {α : Type} {r : α → α → Prop} :
    ∀ {a : α}, Acc r a → Acc (Relation.TransGen r) a := by
  intro a h
  induction h with
  | intro x hx ih =>
    refine Acc.intro x ?_
    intro y hy
    cases hy with
    | single h1 => exact ih y h1
    | tail hyz hzx => exact (ih _ hzx).inv hyz

/-- An accessible element never lies on a cycle of the relation. -/
theorem acc_no_self_transGen {α : Type} {r : α → α → Prop} {a : α}
    (h : Acc r a) : ¬ Relation.TransGen r a a := by
  have h2 := acc_transGen h
  clear h
  induction h2 with
  | intro x hx ih => exact fun hr => ih x hr hr

/-- Inside a well-formed `visiting` stack, every member reaches the top entry
along dependency edges. -/
theorem chainStack_reaches (nodes : List (Nat × DAGNode)) :
    ∀ (t : List Nat) (h0 : Nat), chainStack nodes (h0 :: t) →
      ∀ a ∈ h0 :: t, Relation.ReflTransGen (depEdge nodes) a h0 := by
  intro t
  induction t with
  | nil =>
    intro h0 _ a ha
    rcases List.mem_singleton.1 ha with rfl
    exact Relation.ReflTransGen.refl
  | cons b t ih =>
    intro h0 hch a ha
    have hch2 : depEdge nodes b h0 ∧ chainStack nodes (b :: t) := hch
    rcases List.mem_cons.1 ha with rfl | ha2
    · exact Relation.ReflTransGen.refl
    · exact (ih b hch2.2 a ha2).tail hch2.1

/-- Helper: a cycle error escaping the dependency loop names a node lying on a
dependency cycle, provided every resolver call does. -/
theorem resolveDeps_cycle (nodes : List (Nat × DAGNode))
    (f : Nat → LMap → LMap → RRes) :
    ∀ (deps : List Nat),
      (∀ d ∈ deps, ∀ lv lc k, f d lv lc = .error (.cycle k) →
        Relation.TransGen (depEdge nodes) k k) →
      ∀ (acc : Int) (lv lc : LMap) (k : Nat),
        resolveDeps f deps acc lv lc = .error (.cycle k) →
        Relation.TransGen (depEdge nodes) k k := by
  intro deps
  induction deps with
  | nil => intro _ acc lv lc k h; rw [resolveDeps] at h; cases h
  | cons d ds ih =>
    intro hf acc lv lc k h
    rw [resolveDeps] at h
    cases hr : f d lv lc with
    | error e =>
      rw [hr] at h
      injection h with h2
      exact hf d (List.mem_cons_self d ds) lv lc k (h2 ▸ hr)
    | ok r =>
      rcases r with ⟨l, lv1, lc1⟩
      rw [hr] at h
      exact ih (fun d2 hd2 => hf d2 (List.mem_cons_of_mem d hd2))
        (max acc l) lv1 lc1 k h

/-- Helper: a cycle error from `resolveLevel` names a node lying on an actual
dependency cycle, given a well-formed `visiting` stack. -/
theorem resolveLevel_cycle (nodes : List (Nat × DAGNode)) :
    ∀ (fuel : Nat) (tn : Nat) (lv lc : LMap) (visiting : List Nat) (k : Nat),
      chainStack nodes (tn :: visiting) →
      resolveLevel nodes fuel tn lv lc visiting = .error (.cycle k) →
      Relation.TransGen (depEdge nodes) k k := by
  intro fuel
  induction fuel with
  | zero =>
    intro tn lv lc visiting k _ h
    rw [resolveLevel] at h
    simp at h
  | succ fuel ih =>
    intro tn lv lc visiting k hch h
    rw [resolveLevel] at h
    cases hm : mapGet lv tn with
    | some l0 => rw [hm] at h; cases h
    | none =>
      rw [hm] at h
      simp only [] at h
      by_cases hv : tn ∈ visiting
      · rw [if_pos hv] at h
        injection h with h2
        injection h2 with h3
        subst h3
        cases visiting with
        | nil => simp at hv
        | cons h0 t =>
          have hch2 : depEdge nodes h0 tn ∧ chainStack nodes (h0 :: t) := hch
          have hrt := chainStack_reaches nodes t h0 hch2.2 tn hv
          exact Relation.TransGen.tail' hrt hch2.1
      · rw [if_neg hv] at h
        cases hn : mapGet nodes tn with
        | none => rw [hn] at h; cases h
        | some node =>
          rw [hn] at h
          split at h
          · rename_i heq0
            exact absurd heq0 (by simp)
          · rename_i node2 heq2
            injection heq2 with hh
            subst hh
            split at h
            · rename_i e heq
              injection h with h2
              refine resolveDeps_cycle nodes _ node.dependencies ?_
                (-1) lv lc k (h2 ▸ heq)
              intro d hd lv0 lc0 k0 hcall
              refine ih d lv0 lc0 (tn :: visiting) k0 ?_ hcall
              show depEdge nodes tn d ∧ chainStack nodes (tn :: visiting)
              exact ⟨⟨node, hn, hd⟩, hch⟩
            · rename_i mp lvd lcd heq
              cases h

/-- Helper: the per-key resolution loop of `getParallelGroups` never exhausts
its fuel of `nodes.length + 1`. -/
theorem resolveAllKeys_no_fuel_error (nodes : List (Nat × DAGNode)) :
    ∀ (ks : List Nat) (lv lc : LMap),
      resolveAllKeys nodes (nodes.length + 1) ks lv lc ≠ .error .outOfFuel := by
  intro ks
  induction ks with
  | nil => intro lv lc h; rw [resolveAllKeys] at h; cases h
  | cons k ks ih =>
    intro lv lc h
    rw [resolveAllKeys] at h
    have hcard : ((nodes.map Prod.fst).toFinset \ ([] : List Nat).toFinset).card
        < nodes.length + 1 := by
      simp only [List.toFinset_nil, Finset.sdiff_empty]
      have h1 := List.toFinset_card_le (nodes.map Prod.fst)
      simp only [List.length_map] at h1
      omega
    have hlvl := resolveLevel_no_fuel_error nodes (nodes.length + 1) k lv lc [] hcard
    cases hr : resolveLevel nodes (nodes.length + 1) k lv lc [] with
    | error e =>
      rw [hr] at h hlvl
      injection h with h2
      rw [h2] at hlvl
      exact hlvl rfl
    | ok r =>
      rcases r with ⟨l, lv1, lc1⟩
      rw [hr] at h
      exact ih lv1 lc1 h

/-- Helper: a successful per-key resolution memoizes every requested key and
preserves the accessibility invariant of the memo. -/
theorem resolveAllKeys_inv (nodes : List (Nat × DAGNode)) (fuel : Nat) :
    ∀ (ks : List Nat) (lv lc lv2 lc2 : LMap),
      resolveAllKeys nodes fuel ks lv lc = .ok (lv2, lc2) →
      (∀ k, (mapGet lv k).isSome → (mapGet lv2 k).isSome) ∧
        (∀ k ∈ ks, (mapGet lv2 k).isSome) ∧
        (domAcc nodes lv → domAcc nodes lv2) := by
  intro ks
  induction ks with
  | nil =>
    intro lv lc lv2 lc2 h
    rw [resolveAllKeys] at h
    injection h with h2
    injection h2 with h3 h4
    subst h3
    exact ⟨fun k hk => hk, by simp, fun h => h⟩
  | cons k ks ih =>
    intro lv lc lv2 lc2 h
    rw [resolveAllKeys] at h
    cases hr : resolveLevel nodes fuel k lv lc [] with
    | error e => rw [hr] at h; cases h
    | ok r =>
      rcases r with ⟨l, lv1, lc1⟩
      rw [hr] at h
      obtain ⟨hm1, hs1, ha1⟩ := resolveLevel_inv nodes fuel k lv lc [] l lv1 lc1 hr
      obtain ⟨hm2, hks2, ha2⟩ := ih lv1 lc1 lv2 lc2 h
      refine ⟨fun k2 hk2 => hm2 k2 (hm1 k2 hk2), ?_, fun hd => ha2 (ha1 hd)⟩
      intro k2 hk2
      rcases List.mem_cons.1 hk2 with rfl | hmem
      · exact hm2 k2 hs1
      · exact hks2 k2 hmem

/-- Helper: a cycle error from the per-key resolution loop names a node on an
actual dependency cycle. -/
theorem resolveAllKeys_cycle (nodes : List (Nat × DAGNode)) (fuel : Nat) :
    ∀ (ks : List Nat) (lv lc : LMap) (k : Nat),
      resolveAllKeys nodes fuel ks lv lc = .error (.cycle k) →
      Relation.TransGen (depEdge nodes) k k := by
  intro ks
  induction ks with
  | nil => intro lv lc k h; rw [resolveAllKeys] at h; cases h
  | cons k0 ks ih =>
    intro lv lc k h
    rw [resolveAllKeys] at h
    cases hr : resolveLevel nodes fuel k0 lv lc [] with
    | error e =>
      rw [hr] at h
      injection h with h2
      exact resolveLevel_cycle nodes fuel k0 lv lc [] k (by exact trivial) (h2 ▸ hr)
    | ok r =>
      rcases r with ⟨l, lv1, lc1⟩
      rw [hr] at h
      exact ih lv1 lc1 k h

/-- Helper: if the per-key resolution over all node keys succeeds, the graph
has no dependency cycle. -/
theorem resolveAllKeys_success_no_cycle (nodes : List (Nat × DAGNode))
    (fuel : Nat) (lc lv2 lc2 : LMap)
    (h : resolveAllKeys nodes fuel (nodes.map Prod.fst) [] lc = .ok (lv2, lc2)) :
    ¬ hasCycle nodes := by
  rintro ⟨n, hn⟩
  obtain ⟨-, hks, hacc⟩ := resolveAllKeys_inv nodes fuel (nodes.map Prod.fst)
    [] lc lv2 lc2 h
  obtain ⟨b, hab, -⟩ := Relation.TransGen.head'_iff.1 hn
  obtain ⟨nd, hnd, -⟩ := hab
  have hmem : n ∈ nodes.map Prod.fst := mapGet_some_mem_keys _ _ _ hnd
  have hd0 : domAcc nodes ([] : LMap) := by
    intro k hk
    exact absurd hk (by simp [mapGet])
  exact acc_no_self_transGen (hacc hd0 n (hks n hmem))
    (Relation.transGen_swap.2 hn)

/-- Helper: on a cyclic graph with the cache invalid, `getParallelGroups`
returns a typed cycle error naming a node on a cycle and leaves the state
unchanged. -/
theorem getParallelGroups_cycle_error (st : DAGState) (hd : st.cacheDirty = true)
    (hcyc : hasCycle st.nodes) :
    ∃ k, getParallelGroups st = (.error (.cycle k), st) ∧
      Relation.TransGen (depEdge st.nodes) k k := by
  cases hr : resolveAllKeys st.nodes (st.nodes.length + 1) (st.nodes.map Prod.fst)
      [] st.levelCache with
  | error e =>
    cases e with
    | outOfFuel => exact absurd hr (resolveAllKeys_no_fuel_error st.nodes _ _ _)
    | cycle k =>
      refine ⟨k, ?_, resolveAllKeys_cycle st.nodes _ _ _ _ k hr⟩
      rw [getParallelGroups]
      rw [if_neg (by rintro ⟨h1, -⟩; rw [hd] at h1; cases h1)]
      rw [hr]
  | ok r =>
    rcases r with ⟨lv2, lc2⟩
    exact absurd hcyc (resolveAllKeys_success_no_cycle st.nodes _ _ _ _ hr)

/-- Helper: the dependency loop of the topological-sort visit never exhausts
fuel when the visitor does not. -/
theorem topoDeps_no_fuel_error (f : Nat → List Nat → List Nat → TRes)
    (hf : ∀ d v s, f d v s ≠ .error .outOfFuel) :
    ∀ (deps : List Nat) (visited sorted : List Nat),
      topoDeps f deps visited sorted ≠ .error .outOfFuel := by
  intro deps
  induction deps with
  | nil => intro v s h; rw [topoDeps] at h; cases h
  | cons d ds ih =>
    intro v s
    rw [topoDeps]
    cases hr : f d v s with
    | error e =>
      have h1 := hf d v s
      rw [hr] at h1
      exact h1
    | ok r =>
      rcases r with ⟨v1, s1⟩
      exact ih v1 s1

/-- Helper: the topological-sort visit never runs out of fuel while the fuel
exceeds the number of node keys outside the visiting stack. -/
theorem topoVisit_no_fuel_error (nodes : List (Nat × DAGNode)) :
    ∀ (fuel : Nat) (tn : Nat) (visited visiting sorted : List Nat),
      ((nodes.map Prod.fst).toFinset \ visiting.toFinset).card < fuel →
      topoVisit nodes fuel tn visited visiting sorted ≠ .error .outOfFuel := by
  intro fuel
  induction fuel with
  | zero =>
    intro tn v vg s hcard
    exact absurd hcard (Nat.not_lt_zero _)
  | succ fuel ih =>
    intro tn visited visiting sorted hcard
    rw [topoVisit]
    by_cases h1 : tn ∈ visited
    · rw [if_pos h1]; simp
    · rw [if_neg h1]
      by_cases h2 : tn ∈ visiting
      · rw [if_pos h2]; simp
      · rw [if_neg h2]
        cases hn : mapGet nodes tn with
        | none => simp
        | some node =>
          have hkey : tn ∈ nodes.map Prod.fst := mapGet_some_mem_keys _ _ _ hn
          have hcard2 : ((nodes.map Prod.fst).toFinset \
              (tn :: visiting).toFinset).card < fuel := by
            rw [List.toFinset_cons, Finset.sdiff_insert]
            have hmem : tn ∈ (nodes.map Prod.fst).toFinset \ visiting.toFinset :=
              Finset.mem_sdiff.2 ⟨List.mem_toFinset.2 hkey,
                fun hc => h2 (List.mem_toFinset.1 hc)⟩
            have h3 := Finset.card_erase_lt_of_mem hmem
            omega
          have hdeps := topoDeps_no_fuel_error
            (fun d v s => topoVisit nodes fuel d v (tn :: visiting) s)
            (fun d v s => ih d v (tn :: visiting) s hcard2)
            node.dependencies visited sorted
          split
          · rename_i node2 heq2
            injection heq2 with hh
            subst hh
            split
            · rename_i e heq
              rw [heq] at hdeps
              simpa using hdeps
            · simp
          · simp

/-- Helper: the key loop of `topologicalSort` never exhausts its fuel of
`nodes.length + 1`. -/
theorem topoAll_no_fuel_error (nodes : List (Nat × DAGNode)) :
    ∀ (ks visited sorted : List Nat),
      topoAll nodes (nodes.length + 1) ks visited sorted ≠ .error .outOfFuel := by
  intro ks
  induction ks with
  | nil => intro v s h; rw [topoAll] at h; cases h
  | cons k ks ih =>
    intro v s h
    rw [topoAll] at h
    by_cases hv : k ∈ v
    · rw [if_pos hv] at h
      exact ih v s h
    · rw [if_neg hv] at h
      have hcard : ((nodes.map Prod.fst).toFinset \ ([] : List Nat).toFinset).card
          < nodes.length + 1 := by
        simp only [List.toFinset_nil, Finset.sdiff_empty]
        have h1 := List.toFinset_card_le (nodes.map Prod.fst)
        simp only [List.length_map] at h1
        omega
      have hvis := topoVisit_no_fuel_error nodes (nodes.length + 1) k v [] s hcard
      cases hr : topoVisit nodes (nodes.length + 1) k v [] s with
      | error e =>
        rw [hr] at h hvis
        injection h with h2
        rw [h2] at hvis
        exact hvis rfl
      | ok r =>
        rcases r with ⟨v1, s1⟩
        rw [hr] at h
        exact ih v1 s1 h

/-- Helper: the dependency loop of the topological-sort visit preserves the
visited set monotonically, visits every dependency, and preserves the
accessibility invariant. -/
theorem topoDeps_inv (nodes : List (Nat × DAGNode))
    (f : Nat → List Nat → List Nat → TRes)
    (hf : ∀ d v s v2 s2, f d v s = .ok (v2, s2) →
      (∀ k ∈ v, k ∈ v2) ∧ d ∈ v2 ∧ (accAll nodes v → accAll nodes v2)) :
    ∀ (deps : List Nat) (v s v2 s2 : List Nat),
      topoDeps f deps v s = .ok (v2, s2) →
      (∀ k ∈ v, k ∈ v2) ∧ (∀ d ∈ deps, d ∈ v2) ∧
        (accAll nodes v → accAll nodes v2) := by
  intro deps
  induction deps with
  | nil =>
    intro v s v2 s2 h
    rw [topoDeps] at h
    injection h with h2
    injection h2 with h3 h4
    subst h3
    exact ⟨fun k hk => hk, by simp, fun h => h⟩
  | cons d ds ih =>
    intro v s v2 s2 h
    rw [topoDeps] at h
    cases hr : f d v s with
    | error e => rw [hr] at h; cases h
    | ok r =>
      rcases r with ⟨v1, s1⟩
      rw [hr] at h
      obtain ⟨hm1, hd1, ha1⟩ := hf d v s v1 s1 hr
      obtain ⟨hm2, hds2, ha2⟩ := ih v1 s1 v2 s2 h
      refine ⟨fun k hk => hm2 k (hm1 k hk), ?_, fun ha => ha2 (ha1 ha)⟩
      intro d2 hd2
      rcases List.mem_cons.1 hd2 with rfl | hmem
      · exact hm2 d2 hd1
      · exact hds2 d2 hmem

/-- Helper: a successful topological-sort visit extends the visited set with
the visited node and preserves the accessibility invariant. -/
theorem topoVisit_inv (nodes : List (Nat × DAGNode)) :
    ∀ (fuel : Nat) (tn : Nat) (v vg s v2 s2 : List Nat),
      topoVisit nodes fuel tn v vg s = .ok (v2, s2) →
      (∀ k ∈ v, k ∈ v2) ∧ tn ∈ v2 ∧ (accAll nodes v → accAll nodes v2) := by
  intro fuel
  induction fuel with
  | zero =>
    intro tn v vg s v2 s2 h
    rw [topoVisit] at h
    cases h
  | succ fuel ih =>
    intro tn v vg s v2 s2 h
    rw [topoVisit] at h
    by_cases h1 : tn ∈ v
    · rw [if_pos h1] at h
      injection h with h2
      injection h2 with h3 h4
      subst h3
      exact ⟨fun k hk => hk, h1, fun hacc => hacc⟩
    · rw [if_neg h1] at h
      by_cases h2 : tn ∈ vg
      · rw [if_pos h2] at h
        cases h
      · rw [if_neg h2] at h
        cases hn : mapGet nodes tn with
        | none =>
          rw [hn] at h
          injection h with hh2
          injection hh2 with h3 h4
          subst h3
          refine ⟨fun k hk => List.mem_cons_of_mem tn hk,
            List.mem_cons_self tn v, ?_⟩
          intro hacc k hk
          rcases List.mem_cons.1 hk with rfl | hk2
          · refine Acc.intro _ ?_
            intro d hd
            obtain ⟨nd, hnd, -⟩ := hd
            rw [hn] at hnd
            cases hnd
          · exact hacc k hk2
        | some node =>
          rw [hn] at h
          split at h
          · rename_i node2 heq2
            injection heq2 with hh
            subst hh
            split at h
            · cases h
            · rename_i v1 s1 heq
              injection h with hh2
              injection hh2 with h3 h4
              subst h3
              obtain ⟨hm, hds, hacc⟩ := topoDeps_inv nodes _
                (fun d v0 s0 v20 s20 hcall => ih d v0 (tn :: vg) s0 v20 s20 hcall)
                node.dependencies v s v1 s1 heq
              refine ⟨fun k hk => List.mem_cons_of_mem tn (hm k hk),
                List.mem_cons_self tn v1, ?_⟩
              intro ha k hk
              rcases List.mem_cons.1 hk with rfl | hk2
              · refine Acc.intro _ ?_
                intro d hd
                obtain ⟨nd, hnd, hdep⟩ := hd
                rw [hn] at hnd
                injection hnd with hnd2
                subst hnd2
                exact hacc ha d (hds d hdep)
              · exact hacc ha k hk2
          · rename_i heq0
            exact absurd heq0 (by simp)

/-- Helper: a successful key loop of `topologicalSort` visits every requested
key and preserves the accessibility invariant. -/
theorem topoAll_inv (nodes : List (Nat × DAGNode)) (fuel : Nat) :
    ∀ (ks v s v2 s2 : List Nat),
      topoAll nodes fuel ks v s = .ok (v2, s2) →
      (∀ k ∈ v, k ∈ v2) ∧ (∀ k ∈ ks, k ∈ v2) ∧
        (accAll nodes v → accAll nodes v2) := by
  intro ks
  induction ks with
  | nil =>
    intro v s v2 s2 h
    rw [topoAll] at h
    injection h with h2
    injection h2 with h3 h4
    subst h3
    exact ⟨fun k hk => hk, by simp, fun h => h⟩
  | cons k ks ih =>
    intro v s v2 s2 h
    rw [topoAll] at h
    by_cases hv : k ∈ v
    · rw [if_pos hv] at h
      obtain ⟨hm, hks, ha⟩ := ih v s v2 s2 h
      refine ⟨hm, ?_, ha⟩
      intro k2 hk2
      rcases List.mem_cons.1 hk2 with rfl | hk3
      · exact hm _ hv
      · exact hks k2 hk3
    · rw [if_neg hv] at h
      cases hr : topoVisit nodes fuel k v [] s with
      | error e => rw [hr] at h; cases h
      | ok r =>
        rcases r with ⟨v1, s1⟩
        rw [hr] at h
        obtain ⟨hm1, hk1, ha1⟩ := topoVisit_inv nodes fuel k v [] s v1 s1 hr
        obtain ⟨hm2, hks2, ha2⟩ := ih v1 s1 v2 s2 h
        refine ⟨fun k2 hk2 => hm2 k2 (hm1 k2 hk2), ?_, fun ha => ha2 (ha1 ha)⟩
        intro k2 hk2
        rcases List.mem_cons.1 hk2 with rfl | hk3
        · exact hm2 _ hk1
        · exact hks2 k2 hk3

/-- Helper: if the topological-sort key loop over all node keys succeeds, the
graph has no dependency cycle. -/
theorem topoAll_success_no_cycle (nodes : List (Nat × DAGNode)) (fuel : Nat)
    (v2 s2 : List Nat)
    (h : topoAll nodes fuel (nodes.map Prod.fst) [] [] = .ok (v2, s2)) :
    ¬ hasCycle nodes := by
  rintro ⟨n, hn⟩
  obtain ⟨-, hks, hacc⟩ := topoAll_inv nodes fuel (nodes.map Prod.fst) [] [] v2 s2 h
  obtain ⟨b, hab, -⟩ := Relation.TransGen.head'_iff.1 hn
  obtain ⟨nd, hnd, -⟩ := hab
  have hmem : n ∈ nodes.map Prod.fst := mapGet_some_mem_keys _ _ _ hnd
  have hacc2 : accAll nodes v2 := hacc (by intro k hk; cases hk)
  exact acc_no_self_transGen (hacc2 n (hks n hmem)) (Relation.transGen_swap.2 hn)

/-- Helper: on a cyclic graph `topologicalSort` returns the empty order with
the state unchanged. -/
theorem topologicalSort_cycle_empty (st : DAGState) (hcyc : hasCycle st.nodes) :
    topologicalSort st = some ([], st) := by
  rw [topologicalSort]
  cases hr : topoAll st.nodes (st.nodes.length + 1) (st.nodes.map Prod.fst) [] [] with
  | error e =>
    cases e with
    | cycleFound => rfl
    | outOfFuel => exact absurd hr (topoAll_no_fuel_error st.nodes _ _ _)
  | ok r =>
    rcases r with ⟨v2, s2⟩
    exact absurd hcyc (topoAll_success_no_cycle st.nodes _ _ _ hr)

/-- C1.  Cycle handling is asymmetric between the two graph queries: on every
dependency graph containing a cycle (with the parallel-groups cache invalid,
as after any mutation), `getParallelGroups` terminates with the typed
`DagCycleError` carrying the step number of a node lying on a dependency
cycle and leaves the state unchanged, while `topologicalSort` on the same
graph returns the empty execution order instead of raising. -/
theorem c1_cycle_asymmetry (st : DAGState) (hd : st.cacheDirty = true)
    (hcyc : hasCycle st.nodes) :
    (∃ k, getParallelGroups st = (.error (.cycle k), st) ∧
      Relation.TransGen (depEdge st.nodes) k k) ∧
    topologicalSort st = some ([], st) :=
  ⟨getParallelGroups_cycle_error st hd hcyc, topologicalSort_cycle_empty st hcyc⟩

/-- Witness for C1: the two-node mutual-dependency graph 1 ↔ 2, whose cycle
error names a step on the cycle while the sort returns the empty order. -/
theorem c1_cycle_asymmetry_witness :
    twoCycleState.cacheDirty = true ∧ hasCycle twoCycleState.nodes ∧
      ((∃ k, getParallelGroups twoCycleState = (.error (.cycle k), twoCycleState) ∧
        Relation.TransGen (depEdge twoCycleState.nodes) k k) ∧
      topologicalSort twoCycleState = some ([], twoCycleState)) := by
  have e12 : depEdge twoCycleState.nodes 1 2 := by
    show ∃ nd, mapGet twoCycleState.nodes 1 = some nd ∧ 2 ∈ nd.dependencies
    exact ⟨⟨1, cycThought, [2], [], none, .pending, none, none⟩, rfl, by simp⟩
  have e21 : depEdge twoCycleState.nodes 2 1 := by
    show ∃ nd, mapGet twoCycleState.nodes 2 = some nd ∧ 1 ∈ nd.dependencies
    exact ⟨⟨2, cycThought, [1], [], none, .pending, none, none⟩, rfl, by simp⟩
  have hcyc : hasCycle twoCycleState.nodes :=
    ⟨1, Relation.TransGen.head e12 (Relation.TransGen.single e21)⟩
  exact ⟨rfl, hcyc, c1_cycle_asymmetry twoCycleState rfl hcyc⟩

end STT
